import Mathlib

/-!
# Bucket page of the extendible hash index (`hash_table_bucket_page.cpp`)

A shallow embedding of `HashTableBucketPage<KeyType, ValueType, KeyComparator>`.

* The page is the triple of its three member arrays.  A `char` of a bitmap is
  kept as the natural number of its bit pattern (`0 .. 255`); every
  `static_cast<uint8_t>` / store into a `char` of the source is an explicit
  `% 256`.
* `BUCKET_ARRAY_SIZE` is a constant of the header, which is not part of the
  sources at hand; every operation takes it as the parameter `cap`.  The
  number of elements in the declaration of `array_`, which fixes
  `sizeof(array_)`, is in the same header; `ResetBucketPage` takes it as the
  parameter `array_decl`.
* A `for (i = 0; i < N; ++i)` loop is a structural recursion on the number of
  iterations that are left, carrying the running index; an early `return` or
  `break` ends the recursion.
* The comparator is a function `K → K → Int` (`cmp(a, b) == 0` is equality of
  keys), the `operator==` of values is the `BEq` instance of `V`.
-/

namespace bustub

/-- The type `MappingType`, that is `std::pair<KeyType, ValueType>`. -/
abbrev MappingType (K V : Type) : Type := K × V

/-- The data members of the page: `occupied_`, `readable_` and `array_`. -/
structure HashTableBucketPage (K V : Type) where
  occupied_ : List Nat
  readable_ : List Nat
  array_ : List (MappingType K V)

namespace HashTableBucketPage

variable {K V : Type}

/-- The read `array_[i]`; the all-zero entry stands for a read outside the array. -/
def slot [Zero K] [Zero V] (p : HashTableBucketPage K V) (i : Nat) : MappingType K V :=
  p.array_.getD i 0

/-- `KeyAt`: `array_[bucket_idx].first`. -/
def KeyAt [Zero K] [Zero V] (p : HashTableBucketPage K V) (bucket_idx : Nat) : K :=
  (p.slot bucket_idx).1

/-- `ValueAt`: `array_[bucket_idx].second`. -/
def ValueAt [Zero K] [Zero V] (p : HashTableBucketPage K V) (bucket_idx : Nat) : V :=
  (p.slot bucket_idx).2

/-- `RemoveAt`: `readable_[bucket_idx / 8] &= ~(1 << (bucket_idx % 8))`.  The
operand `~(1 << k)` is an `int` with every bit but `k` set; of the result only
the low eight bits are stored back into the `char`, and the low eight bits of
`~(1 << k)` are `255 ^ (1 << k)`. -/
def RemoveAt (p : HashTableBucketPage K V) (bucket_idx : Nat) : HashTableBucketPage K V :=
  { p with
    readable_ := p.readable_.set (bucket_idx / 8)
      ((p.readable_.getD (bucket_idx / 8) 0 &&& (255 ^^^ (1 <<< (bucket_idx % 8)))) % 256) }

/-- `IsOccupied`: bit `bucket_idx % 8` of `occupied_[bucket_idx / 8]`. -/
def IsOccupied (p : HashTableBucketPage K V) (bucket_idx : Nat) : Bool :=
  let c := p.occupied_.getD (bucket_idx / 8) 0 % 256
  decide ((c &&& (1 <<< (bucket_idx % 8))) > 0)

/-- `SetOccupied`: sets bit `bucket_idx % 8` of `occupied_[bucket_idx / 8]`. -/
def SetOccupied (p : HashTableBucketPage K V) (bucket_idx : Nat) : HashTableBucketPage K V :=
  let c := p.occupied_.getD (bucket_idx / 8) 0 % 256
  let c := (c ||| (1 <<< (bucket_idx % 8))) % 256
  { p with occupied_ := p.occupied_.set (bucket_idx / 8) (c % 256) }

/-- `IsReadable`: bit `bucket_idx % 8` of `readable_[bucket_idx / 8]`. -/
def IsReadable (p : HashTableBucketPage K V) (bucket_idx : Nat) : Bool :=
  let c := p.readable_.getD (bucket_idx / 8) 0 % 256
  decide ((c &&& (1 <<< (bucket_idx % 8))) > 0)

/-- `SetReadable`: sets bit `bucket_idx % 8` of `readable_[bucket_idx / 8]`. -/
def SetReadable (p : HashTableBucketPage K V) (bucket_idx : Nat) : HashTableBucketPage K V :=
  let c := p.readable_.getD (bucket_idx / 8) 0 % 256
  let c := (c ||| (1 <<< (bucket_idx % 8))) % 256
  { p with readable_ := p.readable_.set (bucket_idx / 8) (c % 256) }

/-- The loop of `GetValue`, with `n` iterations left at index `i`; the state is
`*result` and `is_get`. -/
def GetValue.loop [Zero K] [Zero V] (p : HashTableBucketPage K V) (key : K)
    (cmp : K → K → Int) : Nat → Nat → List V → Bool → List V × Bool
  | 0, _, result, is_get => (result, is_get)
  | n + 1, i, result, is_get =>
    if p.IsReadable i && cmp key (p.slot i).1 == 0 then
      GetValue.loop p key cmp n (i + 1) (result ++ [(p.slot i).2]) true
    else
      GetValue.loop p key cmp n (i + 1) result is_get

/-- `GetValue`: returns the flag, the page after the call and `*result` after
the call. -/
def GetValue [Zero K] [Zero V] (cap : Nat) (p : HashTableBucketPage K V) (key : K)
    (cmp : K → K → Int) (result : List V) : Bool × HashTableBucketPage K V × List V :=
  let r := GetValue.loop p key cmp cap 0 result false
  (r.2, p, r.1)

/-- The loop of `Insert`, with `n` iterations left at index `i` and the current
`free_idx`.  `none` is the `return false` inside the loop; `some f` is the
value of `free_idx` when the loop is left (at its end or by the `break`).  The
index stored into the `int32_t` is below the capacity of a page, so the
conversion keeps it. -/
def Insert.loop [Zero K] [Zero V] [BEq V] (p : HashTableBucketPage K V) (key : K) (value : V)
    (cmp : K → K → Int) : Nat → Nat → Int → Option Int
  | 0, _, free_idx => some free_idx
  | n + 1, i, free_idx =>
    if p.IsReadable i then
      if cmp key (p.slot i).1 == 0 && value == (p.slot i).2 then
        none
      else
        Insert.loop p key value cmp n (i + 1) free_idx
    else if free_idx == -1 then
      some (i : Int)
    else
      Insert.loop p key value cmp n (i + 1) free_idx

/-- The three writes of `Insert` at `free_idx`: `SetOccupied(free_idx)`,
`SetReadable(free_idx)` and `array_[free_idx] = MappingType(key, value)`. -/
def Insert.write (p : HashTableBucketPage K V) (free_idx : Nat) (key : K) (value : V) :
    HashTableBucketPage K V :=
  let p1 := p.SetOccupied free_idx
  let p2 := p1.SetReadable free_idx
  { p2 with array_ := p2.array_.set free_idx (key, value) }

/-- `Insert`: returns the flag and the page after the call. -/
def Insert [Zero K] [Zero V] [BEq V] (cap : Nat) (p : HashTableBucketPage K V) (key : K)
    (value : V) (cmp : K → K → Int) : Bool × HashTableBucketPage K V :=
  match Insert.loop p key value cmp cap 0 (-1) with
  | none => (false, p)
  | some free_idx =>
    if free_idx != -1 then
      (true, Insert.write p free_idx.toNat key value)
    else
      (false, p)

/-- The loop of `Remove`, with `n` iterations left at index `i`. -/
def Remove.loop [Zero K] [Zero V] [BEq V] (p : HashTableBucketPage K V) (key : K) (value : V)
    (cmp : K → K → Int) : Nat → Nat → Bool × HashTableBucketPage K V
  | 0, _ => (false, p)
  | n + 1, i =>
    if p.IsReadable i then
      if cmp key (p.slot i).1 == 0 && value == (p.slot i).2 then
        (true, p.RemoveAt i)
      else
        Remove.loop p key value cmp n (i + 1)
    else
      Remove.loop p key value cmp n (i + 1)

/-- `Remove`: returns the flag and the page after the call. -/
def Remove [Zero K] [Zero V] [BEq V] (cap : Nat) (p : HashTableBucketPage K V) (key : K)
    (value : V) (cmp : K → K → Int) : Bool × HashTableBucketPage K V :=
  Remove.loop p key value cmp cap 0

/-- The first loop of `IsFull` over the whole bytes: `false` is its
`return false`, `true` is running to the end. -/
def IsFull.bytes (p : HashTableBucketPage K V) (mask : Nat) : Nat → Nat → Bool
  | 0, _ => true
  | n + 1, i =>
    if (mask &&& (p.readable_.getD i 0 % 256)) != mask then
      false
    else
      IsFull.bytes p mask n (i + 1)

/-- The second loop of `IsFull` over the low bits of the last byte. -/
def IsFull.bits (last_char : Nat) : Nat → Nat → Bool
  | 0, _ => true
  | n + 1, i =>
    if (((1 <<< i) % 256) &&& last_char) == 0 then
      false
    else
      IsFull.bits last_char n (i + 1)

/-- `IsFull`. -/
def IsFull (cap : Nat) (p : HashTableBucketPage K V) : Bool :=
  let len := cap / 8
  let mask := 255
  if !IsFull.bytes p mask len 0 then
    false
  else
    let remain := cap % 8
    if remain > 0 then
      let last_char := p.readable_.getD len 0 % 256
      if !IsFull.bits last_char remain 0 then false else true
    else
      true

/-- The inner loop of `NumReadable` over the eight bits of one byte. -/
def NumReadable.inner (c : Nat) : Nat → Nat → Nat → Nat
  | 0, _, readable_cnt => readable_cnt
  | n + 1, j, readable_cnt =>
    if (c &&& (1 <<< j)) != 0 then
      NumReadable.inner c n (j + 1) (readable_cnt + 1)
    else
      NumReadable.inner c n (j + 1) readable_cnt

/-- The outer loop of `NumReadable` over the bytes of `readable_`. -/
def NumReadable.outer (p : HashTableBucketPage K V) : Nat → Nat → Nat → Nat
  | 0, _, readable_cnt => readable_cnt
  | n + 1, i, readable_cnt =>
    NumReadable.outer p n (i + 1) (NumReadable.inner (p.readable_.getD i 0) 8 0 readable_cnt)

/-- `NumReadable`.  The counter never exceeds eight times the number of bitmap
bytes, so the `uint32_t` does not wrap for a bitmap that fits a page. -/
def NumReadable (cap : Nat) (p : HashTableBucketPage K V) : Nat :=
  let len := (cap + 8 - 1) / 8
  NumReadable.outer p len 0 0

/-- The loop of `IsEmpty`: `false` is the `break` with `is_empty = false`. -/
def IsEmpty.loop (p : HashTableBucketPage K V) (mask : Nat) : Nat → Nat → Bool
  | 0, _ => true
  | n + 1, i =>
    if (mask &&& p.readable_.getD i 0) > 0 then
      false
    else
      IsEmpty.loop p mask n (i + 1)

/-- `IsEmpty`. -/
def IsEmpty (cap : Nat) (p : HashTableBucketPage K V) : Bool :=
  let mask := 255
  let len := (cap + 8 - 1) / 8
  IsEmpty.loop p mask len 0

/-- `ResetBucketPage`: the three `memset(.., 0, sizeof ..)`.  The two bitmaps
are zeroed whole.  `sizeof(array_)` is fixed by the declaration of `array_` in
the header, which is not among the sources: `array_decl` is the number of
elements of that declaration (`0` for `MappingType array_[0]`, the capacity for
an array of all the slots), and the third `memset` zeroes the first
`array_decl` slots and leaves the others as they are. -/
def ResetBucketPage [Zero K] [Zero V] (array_decl : Nat) (p : HashTableBucketPage K V) :
    HashTableBucketPage K V :=
  { occupied_ := List.replicate p.occupied_.length 0
    readable_ := List.replicate p.readable_.length 0
    array_ := List.replicate (min array_decl p.array_.length) 0 ++ p.array_.drop array_decl }

/-- Modelled from the spec: the layout of the page, declared in the header that
is not among the sources.  Each bitmap has `ceil(CAPACITY / 8)` bytes and the
slot array has `CAPACITY` entries; a freshly constructed page is all zero. -/
def zeroPage (K V : Type) [Zero K] [Zero V] (cap : Nat) : HashTableBucketPage K V :=
  { occupied_ := List.replicate ((cap + 7) / 8) 0
    readable_ := List.replicate ((cap + 7) / 8) 0
    array_ := List.replicate cap 0 }

/-- Modelled from the spec: a page state, that is member arrays of the lengths
of the layout whose bitmap elements are bytes. -/
structure WF (cap : Nat) (p : HashTableBucketPage K V) : Prop where
  occupied_length : p.occupied_.length = (cap + 7) / 8
  readable_length : p.readable_.length = (cap + 7) / 8
  array_length : p.array_.length = cap
  occupied_byte : ∀ b ∈ p.occupied_, b < 256
  readable_byte : ∀ b ∈ p.readable_, b < 256

end HashTableBucketPage

open HashTableBucketPage

/-- One call of a mutating operation of the page by its owner.  A reset
carries the number of elements in the declaration of `array_`, see
`ResetBucketPage`; what is proved of every sequence of calls holds for every
such declaration. -/
inductive Op (K V : Type) where
  | Insert (key : K) (value : V) (cmp : K → K → Int)
  | Remove (key : K) (value : V) (cmp : K → K → Int)
  | ResetBucketPage (array_decl : Nat)

/-- The page after one call. -/
def Op.apply {K V : Type} [Zero K] [Zero V] [BEq V] (cap : Nat) (p : HashTableBucketPage K V) :
    Op K V → HashTableBucketPage K V
  | .Insert key value cmp => (p.Insert cap key value cmp).2
  | .Remove key value cmp => (p.Remove cap key value cmp).2
  | .ResetBucketPage array_decl => p.ResetBucketPage array_decl

/-- The page after a finite sequence of calls, started on the zero-initialised
page. -/
def run {K V : Type} [Zero K] [Zero V] [BEq V] (cap : Nat) (ops : List (Op K V)) :
    HashTableBucketPage K V :=
  ops.foldl (Op.apply cap) (zeroPage K V cap)

/-- Slot `i` holds a readable entry whose key compares equal to `key` and whose
value equals `value`. -/
def holds {K V : Type} [Zero K] [Zero V] [BEq V] (p : HashTableBucketPage K V) (key : K)
    (value : V) (cmp : K → K → Int) (i : Nat) : Bool :=
  p.IsReadable i && (cmp key (p.slot i).1 == 0 && value == (p.slot i).2)

/-- The natural-order three-way comparator of `int` keys (`IntComparator`). -/
def IntComparator (a b : Int) : Int :=
  if a < b then -1 else if a > b then 1 else 0

/-- The calls that leave a tombstone in slot 0 in front of the live pair
`(1, 10)` in slot 1, on a page of capacity 4. -/
def tombstoneOps : List (Op Int Int) :=
  [.Insert 7 7 IntComparator, .Insert 1 10 IntComparator, .Remove 7 7 IntComparator]

/-- Bit `i` of a bitmap, addressed as bit `i % 8` of byte `i / 8`. -/
def bitOf (bm : List Nat) (i : Nat) : Bool := (bm.getD (i / 8) 0).testBit (i % 8)

namespace HashTableBucketPage

variable {K V : Type}

/-- The loop of `FetchAllMappingType`, with `n` iterations left at index `i`,
the write position `id` and the allocated array `arr`.  A write `arr[id++]`
at or past the allocated length is a fault, `none`. -/
def FetchAllMappingType.loop [Zero K] [Zero V] (p : HashTableBucketPage K V) :
    Nat → Nat → Nat → List (MappingType K V) → Option (List (MappingType K V))
  | 0, _, _, arr => some arr
  | n + 1, i, id, arr =>
    if p.IsReadable i then
      if id < arr.length then
        FetchAllMappingType.loop p n (i + 1) (id + 1) (arr.set id (p.slot i))
      else
        none
    else
      FetchAllMappingType.loop p n (i + 1) id arr

/-- `FetchAllMappingType`: returns the page after the call and the array
`new MappingType[num]` after the loop, whose elements start as the zero
entry. -/
def FetchAllMappingType [Zero K] [Zero V] (cap : Nat) (p : HashTableBucketPage K V) :
    HashTableBucketPage K V × Option (List (MappingType K V)) :=
  let num := p.NumReadable cap
  let arr : List (MappingType K V) := List.replicate num 0
  (p, FetchAllMappingType.loop p cap 0 0 arr)

/-- The smallest index below `cap` that is not readable, `i + n` when there is
none among the `n` indices from `i` on. -/
def firstFree (p : HashTableBucketPage K V) : Nat → Nat → Nat
  | 0, i => i
  | n + 1, i => if p.IsReadable i then firstFree p n (i + 1) else i

end HashTableBucketPage

/-- A page of capacity 4 whose bitmap byte has the padding bit 4 set and no
bit below the capacity. -/
def paddedPage : HashTableBucketPage Int Int :=
  { occupied_ := [0]
    readable_ := [16]
    array_ := [(0, 0), (0, 0), (0, 0), (0, 0)] }

/-- The calls of the scenario of a page of capacity 4, up to the full page. -/
def scenarioOps : List (Op Int Int) :=
  [.Insert 1 10 IntComparator, .Insert 1 10 IntComparator, .Insert 1 20 IntComparator,
   .Remove 1 10 IntComparator, .Insert 2 30 IntComparator, .Insert 3 1 IntComparator,
   .Insert 4 2 IntComparator]

/-! # Nested-loop join (`nested_loop_join_executor.cpp`)

A child executor is the finite sequence of the tuples that its `Next` calls
return after an `Init`; the right child returns the same sequence after every
`Init`.  The join predicate of the plan is `none` for `nullptr`; the
evaluation of the output columns on a pair of tuples is the function `mk`. -/

/-- The data members of the executor that `Init` and `Next` use. -/
structure NestedLoopJoinExecutor (Out : Type) where
  result_ : List Out
  now_id_ : Nat

namespace NestedLoopJoinExecutor

variable {TL TR Out : Type}

/-- Modelled from the spec: a fresh executor, with no result and `now_id_`
zero (the header with the member initialisers is not among the sources). -/
def fresh (Out : Type) : NestedLoopJoinExecutor Out :=
  { result_ := [], now_id_ := 0 }

/-- The inner `while (right_executor_->Next(..))` of `Init` for one left tuple,
over the tuples that the right child still returns. -/
def Init.inner (pred : Option (TL → TR → Bool)) (mk : TL → TR → Out) (left_tuple : TL) :
    List TR → List Out → List Out
  | [], result => result
  | right_tuple :: rest, result =>
    if pred.isNone || (match pred with
        | some f => f left_tuple right_tuple
        | none => false) then
      Init.inner pred mk left_tuple rest (result ++ [mk left_tuple right_tuple])
    else
      Init.inner pred mk left_tuple rest result

/-- The outer `while (left_executor_->Next(..))` of `Init`, over the tuples
that the left child still returns; the right child is initialised anew for
each of them. -/
def Init.outer (pred : Option (TL → TR → Bool)) (mk : TL → TR → Out) (R : List TR) :
    List TL → List Out → List Out
  | [], result => result
  | left_tuple :: rest, result =>
    Init.outer pred mk R rest (Init.inner pred mk left_tuple R result)

/-- `Init`. -/
def Init (e : NestedLoopJoinExecutor Out) (pred : Option (TL → TR → Bool))
    (mk : TL → TR → Out) (L : List TL) (R : List TR) : NestedLoopJoinExecutor Out :=
  { e with result_ := Init.outer pred mk R L e.result_ }

/-- `Next`: returns the flag, the executor after the call and `*tuple` after
the call. -/
def Next (e : NestedLoopJoinExecutor Out) (tuple : Out) :
    Bool × NestedLoopJoinExecutor Out × Out :=
  match e.result_[e.now_id_]? with
  | some t => (true, { e with now_id_ := e.now_id_ + 1 }, t)
  | none => (false, e, tuple)

/-- The executor and `*tuple` after `n` successive calls of `Next`. -/
def nextN (e : NestedLoopJoinExecutor Out) (tuple : Out) : Nat → NestedLoopJoinExecutor Out × Out
  | 0 => (e, tuple)
  | n + 1 => ((nextN e tuple n).1.Next (nextN e tuple n).2).2

/-- The pairs of the join in the order of the double loop: for each left
tuple in order, the right tuples in order that pass the predicate. -/
def joinPairs (pred : Option (TL → TR → Bool)) (mk : TL → TR → Out) (L : List TL)
    (R : List TR) : List Out :=
  L.flatMap (fun l => (R.filter (fun r => match pred with
    | some f => f l r
    | none => true)).map (fun r => mk l r))

end NestedLoopJoinExecutor

/-! ## Bits of a bitmap byte -/

theorem and_one_shiftLeft_pos (c k : Nat) : decide (c &&& (1 <<< k) > 0) = c.testBit k := by
  have h : ∀ i, (c &&& (1 <<< k)).testBit i = (c.testBit i && decide (k = i)) := by
    intro i
    rw [Nat.testBit_and, Nat.one_shiftLeft, Nat.testBit_two_pow]
  cases hb : c.testBit k with
  | true =>
    have h1 := h k
    rw [hb] at h1
    simp only [decide_True, Bool.and_self] at h1
    have : c &&& (1 <<< k) ≠ 0 := by
      intro h0
      rw [h0] at h1
      simp at h1
    simp only [gt_iff_lt, decide_eq_true_eq]
    omega
  | false =>
    have : c &&& (1 <<< k) = 0 := by
      apply Nat.eq_of_testBit_eq
      intro i
      rw [h i, Nat.zero_testBit]
      by_cases hk : k = i
      · subst hk; simp [hb]
      · simp [hk]
    simp [this]

theorem byte_setBit (c k t : Nat) (ht : t < 8) :
    ((c % 256 ||| (1 <<< k)) % 256 % 256).testBit t = (c.testBit t || decide (k = t)) := by
  have e : (256 : Nat) = 2 ^ 8 := rfl
  rw [e]
  simp only [Nat.testBit_mod_two_pow, Nat.testBit_or, Nat.one_shiftLeft, Nat.testBit_two_pow, ht,
    decide_True, Bool.true_and]

theorem byte_clearBit (c k t : Nat) (ht : t < 8) :
    ((c &&& (255 ^^^ (1 <<< k))) % 256).testBit t = (c.testBit t && !decide (k = t)) := by
  have e : (256 : Nat) = 2 ^ 8 := rfl
  have e2 : (255 : Nat) = 2 ^ 8 - 1 := rfl
  rw [e, e2]
  simp only [Nat.testBit_mod_two_pow, Nat.testBit_and, Nat.testBit_xor, Nat.one_shiftLeft,
    Nat.testBit_two_pow, Nat.testBit_two_pow_sub_one, ht, decide_True, Bool.true_and,
    Bool.true_xor]

theorem idx_eq_iff (i j : Nat) : i = j ↔ i / 8 = j / 8 ∧ i % 8 = j % 8 := by omega

theorem bitOf_set_other (bm : List Nat) (idx j b : Nat) (h : j / 8 ≠ idx / 8) :
    bitOf (bm.set (idx / 8) b) j = bitOf bm j := by
  unfold bitOf
  rw [List.getD_eq_getElem?_getD, List.getD_eq_getElem?_getD, List.getElem?_set_ne (Ne.symm h)]

theorem bitOf_set_same (bm : List Nat) (idx j b : Nat) (h : j / 8 = idx / 8)
    (hl : idx / 8 < bm.length) :
    bitOf (bm.set (idx / 8) b) j = b.testBit (j % 8) := by
  unfold bitOf
  rw [h, List.getD_eq_getElem?_getD, List.getElem?_set_self hl]
  rfl

theorem bitOf_out (bm : List Nat) (j : Nat) (h : bm.length ≤ j / 8) : bitOf bm j = false := by
  unfold bitOf
  rw [List.getD_eq_getElem?_getD, List.getElem?_eq_none h]
  simp

theorem bitOf_setBit (bm : List Nat) (idx j : Nat) :
    bitOf (bm.set (idx / 8) ((bm.getD (idx / 8) 0 % 256 ||| (1 <<< (idx % 8))) % 256 % 256)) j
      = (bitOf bm j || (decide (j = idx) && decide (idx / 8 < bm.length))) := by
  by_cases h : j / 8 = idx / 8
  · by_cases hl : idx / 8 < bm.length
    · rw [bitOf_set_same bm idx j _ h hl, byte_setBit _ _ _ (Nat.mod_lt _ (by decide))]
      have : (idx % 8 = j % 8) ↔ j = idx := by rw [idx_eq_iff j idx]; omega
      simp only [bitOf, h, hl, decide_True, Bool.and_true, this]
    · rw [List.set_eq_of_length_le (by omega)]
      simp [hl]
  · rw [bitOf_set_other bm idx j _ h]
    have : j ≠ idx := by intro e; exact h (by rw [e])
    simp [this]

theorem bitOf_clearBit (bm : List Nat) (idx j : Nat) :
    bitOf (bm.set (idx / 8) ((bm.getD (idx / 8) 0 &&& (255 ^^^ (1 <<< (idx % 8)))) % 256)) j
      = (bitOf bm j && !decide (j = idx)) := by
  by_cases h : j / 8 = idx / 8
  · by_cases hl : idx / 8 < bm.length
    · rw [bitOf_set_same bm idx j _ h hl, byte_clearBit _ _ _ (Nat.mod_lt _ (by decide))]
      have : (idx % 8 = j % 8) ↔ j = idx := by rw [idx_eq_iff j idx]; omega
      simp only [bitOf, h, this]
    · rw [List.set_eq_of_length_le (by omega), bitOf_out bm j (by omega)]
      simp
  · rw [bitOf_set_other bm idx j _ h]
    have : j ≠ idx := by intro e; exact h (by rw [e])
    simp [this]

/-! ## The bit accessors of the page -/

namespace HashTableBucketPage

variable {K V : Type}

theorem IsReadable_eq (p : HashTableBucketPage K V) (i : Nat) :
    p.IsReadable i = bitOf p.readable_ i := by
  have e : (256 : Nat) = 2 ^ 8 := rfl
  have h8 : i % 8 < 8 := Nat.mod_lt _ (by decide)
  simp only [IsReadable, bitOf, and_one_shiftLeft_pos, e, Nat.testBit_mod_two_pow, h8,
    decide_True, Bool.true_and]

theorem IsOccupied_eq (p : HashTableBucketPage K V) (i : Nat) :
    p.IsOccupied i = bitOf p.occupied_ i := by
  have e : (256 : Nat) = 2 ^ 8 := rfl
  have h8 : i % 8 < 8 := Nat.mod_lt _ (by decide)
  simp only [IsOccupied, bitOf, and_one_shiftLeft_pos, e, Nat.testBit_mod_two_pow, h8,
    decide_True, Bool.true_and]

theorem IsReadable_SetReadable (p : HashTableBucketPage K V) (idx j : Nat) :
    (p.SetReadable idx).IsReadable j
      = (p.IsReadable j || (decide (j = idx) && decide (idx / 8 < p.readable_.length))) := by
  rw [IsReadable_eq, IsReadable_eq]
  exact bitOf_setBit p.readable_ idx j

theorem IsOccupied_SetOccupied (p : HashTableBucketPage K V) (idx j : Nat) :
    (p.SetOccupied idx).IsOccupied j
      = (p.IsOccupied j || (decide (j = idx) && decide (idx / 8 < p.occupied_.length))) := by
  rw [IsOccupied_eq, IsOccupied_eq]
  exact bitOf_setBit p.occupied_ idx j

theorem IsReadable_RemoveAt (p : HashTableBucketPage K V) (idx j : Nat) :
    (p.RemoveAt idx).IsReadable j = (p.IsReadable j && !decide (j = idx)) := by
  rw [IsReadable_eq, IsReadable_eq]
  exact bitOf_clearBit p.readable_ idx j

theorem IsReadable_lt (p : HashTableBucketPage K V) (i : Nat) (h : p.IsReadable i = true) :
    i / 8 < p.readable_.length := by
  by_contra hc
  rw [IsReadable_eq, bitOf_out _ _ (by omega)] at h
  exact Bool.false_ne_true h

end HashTableBucketPage

/-! ## The scans of `Insert` and `Remove` -/

section scans

variable {K V : Type} [Zero K] [Zero V] [BEq V]

theorem holds_eq (p : HashTableBucketPage K V) (key : K) (value : V) (cmp : K → K → Int)
    (i : Nat) :
    holds p key value cmp i
      = (p.IsReadable i && (cmp key (p.slot i).1 == 0 && value == (p.slot i).2)) := rfl

/-- The three ways the loop of `Insert` ends: at a readable slot holding the
pair, at the first slot that is not readable, or at the end of the array. -/
theorem Insert_loop_spec (p : HashTableBucketPage K V) (key : K) (value : V)
    (cmp : K → K → Int) (n i : Nat) :
    (HashTableBucketPage.Insert.loop p key value cmp n i (-1) = none ∧
      ∃ j, i ≤ j ∧ j < i + n ∧ holds p key value cmp j = true ∧
        ∀ m, i ≤ m → m < j → p.IsReadable m = true ∧ holds p key value cmp m = false)
    ∨ (∃ f : Nat, HashTableBucketPage.Insert.loop p key value cmp n i (-1) = some (f : Int) ∧
        i ≤ f ∧ f < i + n ∧ p.IsReadable f = false ∧
        ∀ m, i ≤ m → m < f → p.IsReadable m = true ∧ holds p key value cmp m = false)
    ∨ (HashTableBucketPage.Insert.loop p key value cmp n i (-1) = some (-1) ∧
        ∀ m, i ≤ m → m < i + n → p.IsReadable m = true ∧ holds p key value cmp m = false) := by
  induction n generalizing i with
  | zero =>
    right; right
    exact ⟨rfl, fun m h1 h2 => absurd h2 (by omega)⟩
  | succ n ih =>
    unfold HashTableBucketPage.Insert.loop
    cases hr : p.IsReadable i with
    | false =>
      right; left
      refine ⟨i, by simp, le_refl _, by omega, hr, fun m h1 h2 => absurd h2 (by omega)⟩
    | true =>
      cases hm : (cmp key (p.slot i).1 == 0 && value == (p.slot i).2) with
      | true =>
        left
        refine ⟨by simp, i, le_refl _, by omega, by rw [holds_eq, hr, hm]; rfl,
          fun m h1 h2 => absurd h2 (by omega)⟩
      | false =>
        have hi : holds p key value cmp i = false := by rw [holds_eq, hr, hm]; rfl
        have step : ∀ m, i ≤ m → (i + 1 ≤ m → p.IsReadable m = true ∧ holds p key value cmp m = false)
            → p.IsReadable m = true ∧ holds p key value cmp m = false := by
          intro m h1 h2
          by_cases e : m = i
          · subst e; exact ⟨hr, hi⟩
          · exact h2 (by omega)
        simp only [if_true, Bool.false_eq_true, if_false]
        rcases ih (i + 1) with ⟨h, j, h1, h2, h3, h4⟩ | ⟨f, h, h1, h2, h3, h4⟩ | ⟨h, h1⟩
        · left
          exact ⟨h, j, by omega, by omega, h3, fun m a b => step m a (fun c => h4 m c b)⟩
        · right; left
          exact ⟨f, h, by omega, by omega, h3, fun m a b => step m a (fun c => h4 m c b)⟩
        · right; right
          exact ⟨h, fun m a b => step m a (fun c => h1 m c (by omega))⟩

/-- The two ways the loop of `Remove` ends: at the first readable slot holding
the pair, whose readable bit it clears, or at the end of the array. -/
theorem Remove_loop_spec (p : HashTableBucketPage K V) (key : K) (value : V)
    (cmp : K → K → Int) (n i : Nat) :
    (∃ j, HashTableBucketPage.Remove.loop p key value cmp n i = (true, p.RemoveAt j) ∧
        i ≤ j ∧ j < i + n ∧ holds p key value cmp j = true ∧
        ∀ m, i ≤ m → m < j → holds p key value cmp m = false)
    ∨ (HashTableBucketPage.Remove.loop p key value cmp n i = (false, p) ∧
        ∀ m, i ≤ m → m < i + n → holds p key value cmp m = false) := by
  induction n generalizing i with
  | zero =>
    right
    exact ⟨rfl, fun m h1 h2 => absurd h2 (by omega)⟩
  | succ n ih =>
    unfold HashTableBucketPage.Remove.loop
    cases hh : holds p key value cmp i with
    | true =>
      left
      have hh2 := hh
      rw [holds_eq, Bool.and_eq_true] at hh2
      refine ⟨i, by simp [hh2.1, hh2.2], le_refl _, by omega, hh,
        fun m h1 h2 => absurd h2 (by omega)⟩
    | false =>
      have e : (if p.IsReadable i = true then
            if (cmp key (p.slot i).1 == 0 && value == (p.slot i).2) = true then
              (true, p.RemoveAt i)
            else HashTableBucketPage.Remove.loop p key value cmp n (i + 1)
          else HashTableBucketPage.Remove.loop p key value cmp n (i + 1))
          = HashTableBucketPage.Remove.loop p key value cmp n (i + 1) := by
        rw [holds_eq] at hh
        cases hr : p.IsReadable i with
        | false => simp
        | true =>
          rw [hr, Bool.true_and] at hh
          simp [hh]
      rw [e]
      have step : ∀ m, i ≤ m → (i + 1 ≤ m → holds p key value cmp m = false)
          → holds p key value cmp m = false := by
        intro m h1 h2
        by_cases e : m = i
        · subst e; exact hh
        · exact h2 (by omega)
      rcases ih (i + 1) with ⟨j, h, h1, h2, h3, h4⟩ | ⟨h, h1⟩
      · left
        exact ⟨j, h, by omega, by omega, h3, fun m a b => step m a (fun c => h4 m c b)⟩
      · right
        exact ⟨h, fun m a b => step m a (fun c => h1 m c (by omega))⟩

end scans

/-! ## What `Insert` and `Remove` return -/

section calls

variable {K V : Type} [Zero K] [Zero V] [BEq V]

/-- The three outcomes of `Insert`: rejected at a readable slot holding the pair
that lies before every slot that is not readable, written at the first slot
that is not readable, or rejected because every slot is readable. -/
theorem Insert_cases (cap : Nat) (p : HashTableBucketPage K V) (key : K) (value : V)
    (cmp : K → K → Int) :
    (p.Insert cap key value cmp = (false, p) ∧
      ∃ j, j < cap ∧ holds p key value cmp j = true ∧
        ∀ m, m < j → p.IsReadable m = true ∧ holds p key value cmp m = false)
    ∨ (∃ f : Nat, p.Insert cap key value cmp
          = (true, HashTableBucketPage.Insert.write p f key value) ∧
        f < cap ∧ p.IsReadable f = false ∧
        ∀ m, m < f → p.IsReadable m = true ∧ holds p key value cmp m = false)
    ∨ (p.Insert cap key value cmp = (false, p) ∧
        ∀ m, m < cap → p.IsReadable m = true ∧ holds p key value cmp m = false) := by
  unfold HashTableBucketPage.Insert
  rcases Insert_loop_spec p key value cmp cap 0 with ⟨h, j, _, h2, h3, h4⟩ | ⟨f, h, _, h2, h3, h4⟩ | ⟨h, h1⟩
  · left
    rw [h]
    exact ⟨rfl, j, by omega, h3, fun m hm => h4 m (Nat.zero_le _) hm⟩
  · right; left
    rw [h]
    have hne : ((f : Int) != -1) = true := by
      simp only [bne_iff_ne, ne_eq]
      omega
    simp only [hne, if_true, Int.toNat_ofNat]
    exact ⟨f, rfl, by omega, h3, fun m hm => h4 m (Nat.zero_le _) hm⟩
  · right; right
    rw [h]
    exact ⟨by simp, fun m hm => h1 m (Nat.zero_le _) (by omega)⟩

/-- The two outcomes of `Remove`. -/
theorem Remove_cases (cap : Nat) (p : HashTableBucketPage K V) (key : K) (value : V)
    (cmp : K → K → Int) :
    (∃ j, p.Remove cap key value cmp = (true, p.RemoveAt j) ∧ j < cap ∧
        holds p key value cmp j = true ∧ ∀ m, m < j → holds p key value cmp m = false)
    ∨ (p.Remove cap key value cmp = (false, p) ∧
        ∀ m, m < cap → holds p key value cmp m = false) := by
  unfold HashTableBucketPage.Remove
  rcases Remove_loop_spec p key value cmp cap 0 with ⟨j, h, _, h2, h3, h4⟩ | ⟨h, h1⟩
  · left
    exact ⟨j, h, by omega, h3, fun m hm => h4 m (Nat.zero_le _) hm⟩
  · right
    exact ⟨h, fun m hm => h1 m (Nat.zero_le _) (by omega)⟩

end calls

/-! ## The page after the writes of `Insert`, well-formed pages -/

namespace HashTableBucketPage

variable {K V : Type}

theorem IsReadable_write (p : HashTableBucketPage K V) (f : Nat) (key : K) (value : V)
    (j : Nat) :
    (Insert.write p f key value).IsReadable j
      = (p.IsReadable j || (decide (j = f) && decide (f / 8 < p.readable_.length))) := by
  rw [IsReadable_eq, IsReadable_eq]
  exact bitOf_setBit p.readable_ f j

theorem IsOccupied_write (p : HashTableBucketPage K V) (f : Nat) (key : K) (value : V)
    (j : Nat) :
    (Insert.write p f key value).IsOccupied j
      = (p.IsOccupied j || (decide (j = f) && decide (f / 8 < p.occupied_.length))) := by
  rw [IsOccupied_eq, IsOccupied_eq]
  exact bitOf_setBit p.occupied_ f j

theorem slot_write_self [Zero K] [Zero V] (p : HashTableBucketPage K V) (f : Nat) (key : K)
    (value : V) (hf : f < p.array_.length) :
    (Insert.write p f key value).slot f = (key, value) := by
  show ((p.array_.set f (key, value)).getD f 0) = (key, value)
  rw [List.getD_eq_getElem?_getD, List.getElem?_set_self hf]
  rfl

theorem slot_write_other [Zero K] [Zero V] (p : HashTableBucketPage K V) (f : Nat) (key : K)
    (value : V) (j : Nat) (hj : j ≠ f) :
    (Insert.write p f key value).slot j = p.slot j := by
  show ((p.array_.set f (key, value)).getD j 0) = p.array_.getD j 0
  rw [List.getD_eq_getElem?_getD, List.getD_eq_getElem?_getD, List.getElem?_set_ne (Ne.symm hj)]

theorem set_byte {l : List Nat} {i b : Nat} (hl : ∀ x ∈ l, x < 256) (hb : b < 256) :
    ∀ x ∈ l.set i b, x < 256 := by
  intro x hx
  rcases List.mem_or_eq_of_mem_set hx with h | h
  · exact hl x h
  · rw [h]; exact hb

theorem WF.write {cap : Nat} {p : HashTableBucketPage K V} (h : p.WF cap) (f : Nat) (key : K)
    (value : V) : (Insert.write p f key value).WF cap where
  occupied_length := by
    show (p.occupied_.set _ _).length = _
    rw [List.length_set]; exact h.occupied_length
  readable_length := by
    show (p.readable_.set _ _).length = _
    rw [List.length_set]; exact h.readable_length
  array_length := by
    show (p.array_.set _ _).length = _
    rw [List.length_set]; exact h.array_length
  occupied_byte := set_byte h.occupied_byte (Nat.mod_lt _ (by decide))
  readable_byte := set_byte h.readable_byte (Nat.mod_lt _ (by decide))

theorem WF.RemoveAt {cap : Nat} {p : HashTableBucketPage K V} (h : p.WF cap) (idx : Nat) :
    (p.RemoveAt idx).WF cap where
  occupied_length := h.occupied_length
  readable_length := by
    show (p.readable_.set _ _).length = _
    rw [List.length_set]; exact h.readable_length
  array_length := h.array_length
  occupied_byte := h.occupied_byte
  readable_byte := set_byte h.readable_byte (Nat.mod_lt _ (by decide))

theorem WF.ResetBucketPage [Zero K] [Zero V] {cap : Nat} {p : HashTableBucketPage K V}
    (h : p.WF cap) (array_decl : Nat) : (p.ResetBucketPage array_decl).WF cap where
  occupied_length := by
    show (List.replicate _ _).length = _
    rw [List.length_replicate]; exact h.occupied_length
  readable_length := by
    show (List.replicate _ _).length = _
    rw [List.length_replicate]; exact h.readable_length
  array_length := by
    show (List.replicate (min array_decl p.array_.length) (0 : MappingType K V)
      ++ p.array_.drop array_decl).length = _
    rw [List.length_append, List.length_replicate, List.length_drop, h.array_length]
    omega
  occupied_byte := by
    intro b hb
    rw [List.eq_of_mem_replicate hb]; decide
  readable_byte := by
    intro b hb
    rw [List.eq_of_mem_replicate hb]; decide

theorem WF.zeroPage [Zero K] [Zero V] (cap : Nat) : (zeroPage K V cap).WF cap where
  occupied_length := List.length_replicate _ _
  readable_length := List.length_replicate _ _
  array_length := List.length_replicate _ _
  occupied_byte := by
    intro b hb
    rw [List.eq_of_mem_replicate hb]; decide
  readable_byte := by
    intro b hb
    rw [List.eq_of_mem_replicate hb]; decide

theorem WF.idx_lt {cap : Nat} {p : HashTableBucketPage K V} (h : p.WF cap) {f : Nat}
    (hf : f < cap) : f / 8 < p.occupied_.length ∧ f / 8 < p.readable_.length ∧
      f < p.array_.length := by
  rw [h.occupied_length, h.readable_length, h.array_length]
  omega

end HashTableBucketPage

section wf

variable {K V : Type} [Zero K] [Zero V] [BEq V]

theorem WF.Insert {cap : Nat} {p : HashTableBucketPage K V} (h : p.WF cap) (key : K)
    (value : V) (cmp : K → K → Int) : (p.Insert cap key value cmp).2.WF cap := by
  rcases Insert_cases cap p key value cmp with ⟨e, _⟩ | ⟨f, e, _⟩ | ⟨e, _⟩
  · rw [e]; exact h
  · rw [e]; exact h.write f key value
  · rw [e]; exact h

theorem WF.Remove {cap : Nat} {p : HashTableBucketPage K V} (h : p.WF cap) (key : K)
    (value : V) (cmp : K → K → Int) : (p.Remove cap key value cmp).2.WF cap := by
  rcases Remove_cases cap p key value cmp with ⟨j, e, _⟩ | ⟨e, _⟩
  · rw [e]; exact h.RemoveAt j
  · rw [e]; exact h

theorem WF.apply {cap : Nat} {p : HashTableBucketPage K V} (h : p.WF cap) (op : Op K V) :
    (Op.apply cap p op).WF cap := by
  cases op with
  | Insert key value cmp => exact WF.Insert h key value cmp
  | Remove key value cmp => exact WF.Remove h key value cmp
  | ResetBucketPage array_decl => exact h.ResetBucketPage array_decl

/-- An invariant of every call that holds on the zero page holds after every
finite sequence of calls. -/
theorem run_induction (cap : Nat) (P : HashTableBucketPage K V → Prop)
    (h0 : P (zeroPage K V cap))
    (hstep : ∀ p op, P p → P (Op.apply cap p op)) (ops : List (Op K V)) :
    P (run cap ops) := by
  unfold run
  generalize zeroPage K V cap = p0 at h0
  induction ops generalizing p0 with
  | nil => exact h0
  | cons op ops ih => exact ih _ (hstep _ _ h0)

theorem WF.run (cap : Nat) (ops : List (Op K V)) : (run cap ops).WF cap :=
  run_induction cap (fun p => p.WF cap) (HashTableBucketPage.WF.zeroPage cap)
    (fun _ op h => WF.apply h op) ops

theorem run_append_one (cap : Nat) (ops : List (Op K V)) (op : Op K V) :
    run cap (ops ++ [op]) = Op.apply cap (run cap ops) op := by
  unfold run
  rw [List.foldl_append]
  rfl

end wf

/-! ## Claims on `Insert` and `Remove` -/

section claims

variable {K V : Type} [Zero K] [Zero V] [BEq V]

/-- C1, evaluated on the code: on the page of capacity 4 whose slot 0 is a
tombstone and whose slot 1 holds the readable pair `(1, 10)`, `Insert(1, 10)`
does not reject the pair: it returns `true` and writes a second copy into
slot 0, so that the page is changed. -/
theorem Insert_accepts_pair_behind_tombstone :
    (run 4 tombstoneOps).IsReadable 0 = false ∧
    holds (run 4 tombstoneOps) 1 10 IntComparator 1 = true ∧
    ((run 4 tombstoneOps).Insert 4 1 10 IntComparator).1 = true ∧
    ((run 4 tombstoneOps).Insert 4 1 10 IntComparator).2.slot 0 = (1, 10) ∧
    ((run 4 tombstoneOps).Insert 4 1 10 IntComparator).2.readable_ = [3] ∧
    (run 4 tombstoneOps).readable_ = [2] := by
  decide

/-- C2, evaluated on the code: after `Insert(7,7)`, `Insert(1,10)`,
`Remove(7,7)`, `Insert(1,10)` on the zero page of capacity 4, slots 0 and 1
are both readable and hold the same pair `(1, 10)`. -/
theorem duplicate_live_pair_reachable :
    (run 4 (tombstoneOps ++ [.Insert 1 10 IntComparator])).IsReadable 0 = true ∧
    (run 4 (tombstoneOps ++ [.Insert 1 10 IntComparator])).IsReadable 1 = true ∧
    IntComparator ((run 4 (tombstoneOps ++ [.Insert 1 10 IntComparator])).KeyAt 0)
      ((run 4 (tombstoneOps ++ [.Insert 1 10 IntComparator])).KeyAt 1) = 0 ∧
    ((run 4 (tombstoneOps ++ [.Insert 1 10 IntComparator])).ValueAt 0
      == (run 4 (tombstoneOps ++ [.Insert 1 10 IntComparator])).ValueAt 1) = true := by
  decide

/-- C3: on a page where no readable slot holds `(k, v)` and some slot below the
capacity is not readable, `Insert(k, v, cmp)` returns `true`, stores `(k, v)`
at the smallest index `f` that is not readable, sets `IsOccupied(f)` and
`IsReadable(f)`, and leaves every other slot and every other bit of both
bitmaps as they were (the result is again a page of that capacity). -/
theorem Insert_writes_first_free (cap : Nat) (p : HashTableBucketPage K V) (k : K) (v : V)
    (cmp : K → K → Int) (hwf : p.WF cap)
    (hno : ∀ i, i < cap → holds p k v cmp i = false)
    (hfree : ∃ i, i < cap ∧ p.IsReadable i = false) :
    ∃ f, f < cap ∧ p.IsReadable f = false ∧ (∀ m, m < f → p.IsReadable m = true) ∧
      (p.Insert cap k v cmp).1 = true ∧
      (p.Insert cap k v cmp).2.slot f = (k, v) ∧
      (p.Insert cap k v cmp).2.IsOccupied f = true ∧
      (p.Insert cap k v cmp).2.IsReadable f = true ∧
      (∀ j, j ≠ f → (p.Insert cap k v cmp).2.slot j = p.slot j) ∧
      (∀ j, j ≠ f → (p.Insert cap k v cmp).2.IsOccupied j = p.IsOccupied j) ∧
      (∀ j, j ≠ f → (p.Insert cap k v cmp).2.IsReadable j = p.IsReadable j) ∧
      (p.Insert cap k v cmp).2.WF cap := by
  obtain ⟨i0, hi0, hr0⟩ := hfree
  rcases Insert_cases cap p k v cmp with ⟨_, j, hj, hh, _⟩ | ⟨f, e, hf, hr, hb⟩ | ⟨_, hall⟩
  · rw [hno j hj] at hh
    exact absurd hh Bool.false_ne_true
  · obtain ⟨ho, hrl, ha⟩ := hwf.idx_lt hf
    rw [e]
    refine ⟨f, hf, hr, fun m hm => (hb m hm).1, rfl, ?_, ?_, ?_, ?_, ?_, ?_, hwf.write f k v⟩
    · exact HashTableBucketPage.slot_write_self p f k v ha
    · show (HashTableBucketPage.Insert.write p f k v).IsOccupied f = true
      rw [HashTableBucketPage.IsOccupied_write]
      simp [ho]
    · show (HashTableBucketPage.Insert.write p f k v).IsReadable f = true
      rw [HashTableBucketPage.IsReadable_write]
      simp [hrl]
    · intro j hj
      exact HashTableBucketPage.slot_write_other p f k v j hj
    · intro j hj
      show (HashTableBucketPage.Insert.write p f k v).IsOccupied j = _
      rw [HashTableBucketPage.IsOccupied_write]
      simp [hj]
    · intro j hj
      show (HashTableBucketPage.Insert.write p f k v).IsReadable j = _
      rw [HashTableBucketPage.IsReadable_write]
      simp [hj]
  · rw [(hall i0 hi0).1] at hr0
    exact absurd hr0 (by decide)

/-- C3 at a concrete page: slot 0 is a tombstone in front of the live slot 1,
and `Insert(2, 30)` takes the tombstone, not the never-used slot 2. -/
theorem Insert_writes_first_free_witness :
    ∃ f, f < 4 ∧ (run 4 tombstoneOps).IsReadable f = false ∧
      (∀ m, m < f → (run 4 tombstoneOps).IsReadable m = true) ∧
      ((run 4 tombstoneOps).Insert 4 2 30 IntComparator).1 = true ∧
      ((run 4 tombstoneOps).Insert 4 2 30 IntComparator).2.slot f = (2, 30) ∧
      ((run 4 tombstoneOps).Insert 4 2 30 IntComparator).2.IsOccupied f = true ∧
      ((run 4 tombstoneOps).Insert 4 2 30 IntComparator).2.IsReadable f = true ∧
      (∀ j, j ≠ f → ((run 4 tombstoneOps).Insert 4 2 30 IntComparator).2.slot j
        = (run 4 tombstoneOps).slot j) ∧
      (∀ j, j ≠ f → ((run 4 tombstoneOps).Insert 4 2 30 IntComparator).2.IsOccupied j
        = (run 4 tombstoneOps).IsOccupied j) ∧
      (∀ j, j ≠ f → ((run 4 tombstoneOps).Insert 4 2 30 IntComparator).2.IsReadable j
        = (run 4 tombstoneOps).IsReadable j) ∧
      ((run 4 tombstoneOps).Insert 4 2 30 IntComparator).2.WF 4 :=
  Insert_writes_first_free 4 (run 4 tombstoneOps) 2 30 IntComparator (WF.run 4 tombstoneOps)
    (by decide) ⟨0, by decide, by decide⟩

/-- C4: when every slot below the capacity is readable, `Insert` returns
`false` for every key and value; and whenever `Insert` returns `false`, the
page after the call is the page before it. -/
theorem Insert_fails_atomically (cap : Nat) (p : HashTableBucketPage K V) :
    ((∀ i, i < cap → p.IsReadable i = true) →
      ∀ (k : K) (v : V) (cmp : K → K → Int), (p.Insert cap k v cmp).1 = false) ∧
    (∀ (k : K) (v : V) (cmp : K → K → Int),
      (p.Insert cap k v cmp).1 = false → (p.Insert cap k v cmp).2 = p) := by
  constructor
  · intro hfull k v cmp
    rcases Insert_cases cap p k v cmp with ⟨e, _⟩ | ⟨f, _, hf, hr, _⟩ | ⟨e, _⟩
    · rw [e]
    · rw [hfull f hf] at hr
      exact absurd hr (by decide)
    · rw [e]
  · intro k v cmp h
    rcases Insert_cases cap p k v cmp with ⟨e, _⟩ | ⟨f, e, _⟩ | ⟨e, _⟩
    · rw [e]
    · rw [e] at h
      simp at h
    · rw [e]

/-- C5: `Remove(k, v, cmp)` returns `true` exactly when some readable slot
below the capacity holds the pair.  When it returns `true`, the page after the
call differs from the page before it only in the readable bit of the smallest
such index `m`, which is cleared: `occupied_` (so the occupied bit of `m`) and
`array_` are the same and every other readable bit is as before.  When it
returns `false` the page is the same. -/
theorem Remove_clears_first_match (cap : Nat) (p : HashTableBucketPage K V) (k : K) (v : V)
    (cmp : K → K → Int) :
    ((p.Remove cap k v cmp).1 = true ↔ ∃ i, i < cap ∧ holds p k v cmp i = true) ∧
    ((p.Remove cap k v cmp).1 = true →
      ∃ m, m < cap ∧ holds p k v cmp m = true ∧ (∀ i, i < m → holds p k v cmp i = false) ∧
        (p.Remove cap k v cmp).2.IsReadable m = false ∧
        (∀ j, j ≠ m → (p.Remove cap k v cmp).2.IsReadable j = p.IsReadable j) ∧
        (p.Remove cap k v cmp).2.readable_.length = p.readable_.length ∧
        (p.Remove cap k v cmp).2.occupied_ = p.occupied_ ∧
        (p.Remove cap k v cmp).2.IsOccupied m = p.IsOccupied m ∧
        (p.Remove cap k v cmp).2.array_ = p.array_) ∧
    ((p.Remove cap k v cmp).1 = false → (p.Remove cap k v cmp).2 = p) := by
  rcases Remove_cases cap p k v cmp with ⟨m, e, hm, hh, hb⟩ | ⟨e, hall⟩
  · rw [e]
    refine ⟨⟨fun _ => ⟨m, hm, hh⟩, fun _ => rfl⟩, fun _ => ?_, fun h => by simp at h⟩
    refine ⟨m, hm, hh, hb, ?_, ?_, ?_, rfl, rfl, rfl⟩
    · show (p.RemoveAt m).IsReadable m = false
      rw [HashTableBucketPage.IsReadable_RemoveAt]
      simp
    · intro j hj
      show (p.RemoveAt m).IsReadable j = _
      rw [HashTableBucketPage.IsReadable_RemoveAt]
      simp [hj]
    · show (p.readable_.set _ _).length = _
      rw [List.length_set]
  · rw [e]
    refine ⟨⟨fun h => by simp at h, ?_⟩, fun h => by simp at h, fun _ => rfl⟩
    rintro ⟨i, hi, hh⟩
    rw [hall i hi] at hh
    exact absurd hh (by decide)

end claims

/-! ## `GetValue` -/

section getvalue

variable {K V : Type} [Zero K] [Zero V]

/-- The loop of `GetValue` appends the values of the matching slots among the
`n` slots from `i` on, and raises the flag when there is one. -/
theorem GetValue_loop_spec (p : HashTableBucketPage K V) (key : K) (cmp : K → K → Int)
    (n i : Nat) (result : List V) (is_get : Bool) :
    HashTableBucketPage.GetValue.loop p key cmp n i result is_get
      = (result ++ ((List.range' i n).filter
            (fun t => p.IsReadable t && cmp key (p.slot t).1 == 0)).map (fun t => (p.slot t).2),
         is_get || (List.range' i n).any
            (fun t => p.IsReadable t && cmp key (p.slot t).1 == 0)) := by
  induction n generalizing i result is_get with
  | zero => simp [HashTableBucketPage.GetValue.loop]
  | succ n ih =>
    unfold HashTableBucketPage.GetValue.loop
    rw [List.range'_succ]
    cases h : (p.IsReadable i && cmp key (p.slot i).1 == 0) with
    | true =>
      simp only [if_true, ih, List.filter_cons, h, List.map_cons, List.append_assoc,
        List.singleton_append, List.any_cons, Bool.true_or, Bool.or_true]
    | false =>
      simp only [Bool.false_eq_true, if_false, ih, List.filter_cons, h, List.any_cons,
        Bool.false_or]

/-- C6: `GetValue(k, cmp, &r)` leaves the page as it is, makes `r` the old `r`
followed by the values of the slots below the capacity that are readable and
whose key compares equal to `k`, in increasing index order, and returns `true`
exactly when there is such a slot. -/
theorem GetValue_appends_matches_in_slot_order (cap : Nat) (p : HashTableBucketPage K V)
    (k : K) (cmp : K → K → Int) (r : List V) :
    (p.GetValue cap k cmp r).2.1 = p ∧
    (p.GetValue cap k cmp r).2.2
      = r ++ ((List.range cap).filter
          (fun i => p.IsReadable i && cmp k (p.slot i).1 == 0)).map (fun i => (p.slot i).2) ∧
    ((p.GetValue cap k cmp r).1 = true
      ↔ ∃ i, i < cap ∧ p.IsReadable i = true ∧ cmp k (p.slot i).1 = 0) := by
  unfold HashTableBucketPage.GetValue
  simp only [GetValue_loop_spec, List.range_eq_range', Bool.false_or, List.any_eq_true,
    List.mem_range'_1, Bool.and_eq_true, beq_iff_eq, true_and]
  constructor
  · rintro ⟨i, ⟨_, hi⟩, hr, hc⟩
    exact ⟨i, by omega, hr, hc⟩
  · rintro ⟨i, hi, hr, hc⟩
    exact ⟨i, ⟨Nat.zero_le _, by omega⟩, hr, hc⟩

end getvalue

/-! ## Insert followed by Remove -/

theorem byte_roundtrip (c k : Nat) (hc : c < 256) (hk : c.testBit k = false) :
    ((c % 256 ||| (1 <<< k)) % 256 % 256 &&& (255 ^^^ (1 <<< k))) % 256 = c := by
  apply Nat.eq_of_testBit_eq
  intro t
  by_cases ht : t < 8
  · rw [byte_clearBit _ _ _ ht, byte_setBit _ _ _ ht]
    by_cases e : k = t
    · subst e; simp [hk]
    · simp [e]
  · have e : (256 : Nat) = 2 ^ 8 := rfl
    have h1 : c < 2 ^ t := lt_of_lt_of_le hc (by rw [e]; exact Nat.pow_le_pow_right (by decide) (by omega))
    rw [Nat.testBit_lt_two_pow h1]
    apply Nat.testBit_lt_two_pow
    exact lt_of_lt_of_le (Nat.mod_lt _ (by decide))
      (by rw [e]; exact Nat.pow_le_pow_right (by decide) (by omega))

theorem set_getD_self (l : List Nat) (i : Nat) : l.set i (l.getD i 0) = l := by
  apply List.ext_getElem?
  intro j
  by_cases h : i = j
  · subst h
    by_cases hl : i < l.length
    · rw [List.getElem?_set_self hl, List.getD_eq_getElem?_getD, List.getElem?_eq_getElem hl]
      rfl
    · rw [List.set_eq_of_length_le (by omega)]
  · rw [List.getElem?_set_ne h]

theorem set_clear_set (l : List Nat) (f : Nat) (hl : f / 8 < l.length)
    (hb : ∀ b ∈ l, b < 256) (hbit : bitOf l f = false) :
    (l.set (f / 8) ((l.getD (f / 8) 0 % 256 ||| (1 <<< (f % 8))) % 256 % 256)).set (f / 8)
      (((l.set (f / 8) ((l.getD (f / 8) 0 % 256 ||| (1 <<< (f % 8))) % 256 % 256)).getD (f / 8) 0
        &&& (255 ^^^ (1 <<< (f % 8)))) % 256) = l := by
  have hc : l.getD (f / 8) 0 < 256 := by
    rw [List.getD_eq_getElem?_getD, List.getElem?_eq_getElem hl]
    exact hb _ (List.getElem_mem hl)
  have hg : (l.set (f / 8) ((l.getD (f / 8) 0 % 256 ||| (1 <<< (f % 8))) % 256 % 256)).getD (f / 8) 0
      = (l.getD (f / 8) 0 % 256 ||| (1 <<< (f % 8))) % 256 % 256 := by
    rw [List.getD_eq_getElem?_getD, List.getElem?_set_self hl]
    rfl
  rw [hg, List.set_set, byte_roundtrip _ _ hc hbit, set_getD_self]

namespace HashTableBucketPage

variable {K V : Type}

theorem NumReadable.outer_congr (p q : HashTableBucketPage K V) (h : p.readable_ = q.readable_)
    (n i c : Nat) : NumReadable.outer p n i c = NumReadable.outer q n i c := by
  induction n generalizing i c with
  | zero => rfl
  | succ n ih =>
    unfold NumReadable.outer
    rw [h, ih]

theorem NumReadable_congr (cap : Nat) (p q : HashTableBucketPage K V)
    (h : p.readable_ = q.readable_) : p.NumReadable cap = q.NumReadable cap :=
  NumReadable.outer_congr p q h _ _ _

end HashTableBucketPage

section roundtrip

variable {K V : Type} [Zero K] [Zero V] [BEq V]

/-- C7: when `cmp(k, k) == 0` and `v == v`, and `Insert(k, v, cmp)` returns
`true`, it has written a slot `f` that was not readable; the `Remove(k, v, cmp)`
that follows returns `true` and clears the readable bit of that very slot, so
that `IsReadable(f)` is `false`, `readable_` is what it was before the `Insert`,
and `NumReadable()` is what it was before the `Insert`. -/
theorem Insert_then_Remove_roundtrip (cap : Nat) (p : HashTableBucketPage K V) (k : K) (v : V)
    (cmp : K → K → Int) (hwf : p.WF cap) (hk : cmp k k = 0) (hv : (v == v) = true)
    (hins : (p.Insert cap k v cmp).1 = true) :
    ∃ f, f < cap ∧ p.IsReadable f = false ∧
      (p.Insert cap k v cmp).2.IsReadable f = true ∧
      (p.Insert cap k v cmp).2.slot f = (k, v) ∧
      (∀ j, j ≠ f → (p.Insert cap k v cmp).2.IsReadable j = p.IsReadable j) ∧
      ((p.Insert cap k v cmp).2.Remove cap k v cmp).1 = true ∧
      ((p.Insert cap k v cmp).2.Remove cap k v cmp).2 = (p.Insert cap k v cmp).2.RemoveAt f ∧
      ((p.Insert cap k v cmp).2.Remove cap k v cmp).2.IsReadable f = false ∧
      ((p.Insert cap k v cmp).2.Remove cap k v cmp).2.readable_ = p.readable_ ∧
      ((p.Insert cap k v cmp).2.Remove cap k v cmp).2.NumReadable cap = p.NumReadable cap := by
  rcases Insert_cases cap p k v cmp with ⟨e, _⟩ | ⟨f, e, hf, hr, hb⟩ | ⟨e, _⟩
  · rw [e] at hins; simp at hins
  · obtain ⟨ho, hrl, ha⟩ := hwf.idx_lt hf
    rw [e]
    simp only
    have hqr : ∀ j, (HashTableBucketPage.Insert.write p f k v).IsReadable j
        = (p.IsReadable j || decide (j = f)) := by
      intro j
      rw [HashTableBucketPage.IsReadable_write]
      simp [hrl]
    have hqf : (HashTableBucketPage.Insert.write p f k v).slot f = (k, v) :=
      HashTableBucketPage.slot_write_self p f k v ha
    have hhf : holds (HashTableBucketPage.Insert.write p f k v) k v cmp f = true := by
      rw [holds_eq, hqr, hqf]
      simp [hk, hv]
    have hhb : ∀ m, m < f → holds (HashTableBucketPage.Insert.write p f k v) k v cmp m = false := by
      intro m hm
      have hne : m ≠ f := by omega
      have h1 := (hb m hm).2
      rw [holds_eq] at h1 ⊢
      rw [hqr, HashTableBucketPage.slot_write_other p f k v m hne]
      simpa [hne] using h1
    have hrem : (HashTableBucketPage.Insert.write p f k v).Remove cap k v cmp
        = (true, (HashTableBucketPage.Insert.write p f k v).RemoveAt f) := by
      rcases Remove_cases cap (HashTableBucketPage.Insert.write p f k v) k v cmp with
        ⟨j, e2, hj, hhj, hbj⟩ | ⟨_, hall⟩
      · have : j = f := by
          rcases Nat.lt_trichotomy j f with h | h | h
          · rw [hhb j h] at hhj; simp at hhj
          · exact h
          · rw [hbj f h] at hhf; simp at hhf
        rw [e2, this]
      · rw [hall f hf] at hhf; simp at hhf
    have hrd : ((HashTableBucketPage.Insert.write p f k v).RemoveAt f).readable_ = p.readable_ := by
      have hbit : bitOf p.readable_ f = false := by
        rw [← HashTableBucketPage.IsReadable_eq]; exact hr
      exact set_clear_set p.readable_ f hrl hwf.readable_byte hbit
    rw [hrem]
    refine ⟨f, hf, hr, ?_, hqf, ?_, rfl, rfl, ?_, hrd, ?_⟩
    · rw [hqr]; simp
    · intro j hj
      rw [hqr]; simp [hj]
    · show ((HashTableBucketPage.Insert.write p f k v).RemoveAt f).IsReadable f = false
      rw [HashTableBucketPage.IsReadable_RemoveAt]; simp
    · exact HashTableBucketPage.NumReadable_congr cap _ _ hrd
  · rw [e] at hins; simp at hins

/-- C7 at a concrete page: the page already holds `(1, 10)` in slot 1 behind
the tombstone in slot 0; `Insert(1, 10)` writes slot 0 and the `Remove(1, 10)`
that follows clears slot 0, not slot 1. -/
theorem Insert_then_Remove_roundtrip_witness :
    ∃ f, f < 4 ∧ (run 4 tombstoneOps).IsReadable f = false ∧
      ((run 4 tombstoneOps).Insert 4 1 10 IntComparator).2.IsReadable f = true ∧
      ((run 4 tombstoneOps).Insert 4 1 10 IntComparator).2.slot f = (1, 10) ∧
      (∀ j, j ≠ f → ((run 4 tombstoneOps).Insert 4 1 10 IntComparator).2.IsReadable j
        = (run 4 tombstoneOps).IsReadable j) ∧
      (((run 4 tombstoneOps).Insert 4 1 10 IntComparator).2.Remove 4 1 10 IntComparator).1
        = true ∧
      (((run 4 tombstoneOps).Insert 4 1 10 IntComparator).2.Remove 4 1 10 IntComparator).2
        = ((run 4 tombstoneOps).Insert 4 1 10 IntComparator).2.RemoveAt f ∧
      (((run 4 tombstoneOps).Insert 4 1 10 IntComparator).2.Remove 4 1 10
        IntComparator).2.IsReadable f = false ∧
      (((run 4 tombstoneOps).Insert 4 1 10 IntComparator).2.Remove 4 1 10
        IntComparator).2.readable_ = (run 4 tombstoneOps).readable_ ∧
      (((run 4 tombstoneOps).Insert 4 1 10 IntComparator).2.Remove 4 1 10
        IntComparator).2.NumReadable 4 = (run 4 tombstoneOps).NumReadable 4 :=
  Insert_then_Remove_roundtrip 4 (run 4 tombstoneOps) 1 10 IntComparator (WF.run 4 tombstoneOps)
    (by decide) (by decide) (by decide)

end roundtrip

/-! ## Invariants of the calls -/

theorem bitOf_replicate_zero (n i : Nat) : bitOf (List.replicate n 0) i = false := by
  unfold bitOf
  have : (List.replicate n 0).getD (i / 8) 0 = 0 := by
    rw [List.getD_eq_getElem?_getD, List.getElem?_replicate]
    split <;> rfl
  rw [this, Nat.zero_testBit]

section zero

variable {K V : Type} [Zero K] [Zero V]

theorem IsReadable_zeroPage (cap i : Nat) : (zeroPage K V cap).IsReadable i = false := by
  rw [HashTableBucketPage.IsReadable_eq]
  exact bitOf_replicate_zero _ _

theorem IsReadable_ResetBucketPage (array_decl : Nat) (p : HashTableBucketPage K V) (i : Nat) :
    (p.ResetBucketPage array_decl).IsReadable i = false := by
  rw [HashTableBucketPage.IsReadable_eq]
  exact bitOf_replicate_zero _ _

end zero

section invariants

variable {K V : Type} [Zero K] [Zero V] [BEq V]

/-- Each call keeps every readable slot occupied. -/
theorem readable_occupied_apply {cap : Nat} {p : HashTableBucketPage K V} (hwf : p.WF cap)
    (h : ∀ i, p.IsReadable i = true → p.IsOccupied i = true) (op : Op K V) :
    ∀ i, (Op.apply cap p op).IsReadable i = true → (Op.apply cap p op).IsOccupied i = true := by
  cases op with
  | Insert key value cmp =>
    show ∀ i, (p.Insert cap key value cmp).2.IsReadable i = true
      → (p.Insert cap key value cmp).2.IsOccupied i = true
    rcases Insert_cases cap p key value cmp with ⟨e, _⟩ | ⟨f, e, hf, _, _⟩ | ⟨e, _⟩
    · rw [e]; exact h
    · rw [e]
      obtain ⟨ho, hrl, _⟩ := hwf.idx_lt hf
      intro i hi
      show (HashTableBucketPage.Insert.write p f key value).IsOccupied i = true
      have hi2 : (HashTableBucketPage.Insert.write p f key value).IsReadable i = true := hi
      rw [HashTableBucketPage.IsReadable_write] at hi2
      rw [HashTableBucketPage.IsOccupied_write]
      simp only [hrl, ho, decide_True, Bool.and_true, Bool.or_eq_true, decide_eq_true_eq] at hi2 ⊢
      rcases hi2 with h1 | h1
      · exact Or.inl (h i h1)
      · exact Or.inr h1
    · rw [e]; exact h
  | Remove key value cmp =>
    show ∀ i, (p.Remove cap key value cmp).2.IsReadable i = true
      → (p.Remove cap key value cmp).2.IsOccupied i = true
    rcases Remove_cases cap p key value cmp with ⟨j, e, _⟩ | ⟨e, _⟩
    · rw [e]
      intro i hi
      have hi2 : (p.RemoveAt j).IsReadable i = true := hi
      rw [HashTableBucketPage.IsReadable_RemoveAt, Bool.and_eq_true] at hi2
      exact h i hi2.1
    · rw [e]; exact h
  | ResetBucketPage array_decl =>
    intro i hi
    have hi2 : (p.ResetBucketPage array_decl).IsReadable i = true := hi
    rw [IsReadable_ResetBucketPage] at hi2
    exact absurd hi2 (by decide)

/-- C8: after any finite sequence of `Insert`, `Remove` and `ResetBucketPage`
calls on the zero-initialised page, every index `i` below the capacity with
`IsReadable(i)` has `IsOccupied(i)`. -/
theorem readable_implies_occupied (cap : Nat) (ops : List (Op K V)) (i : Nat) (_hi : i < cap)
    (hr : (run cap ops).IsReadable i = true) : (run cap ops).IsOccupied i = true := by
  have h : (run cap ops).WF cap ∧
      ∀ j, (run cap ops).IsReadable j = true → (run cap ops).IsOccupied j = true :=
    run_induction cap
      (fun p => p.WF cap ∧ ∀ j, p.IsReadable j = true → p.IsOccupied j = true)
      ⟨HashTableBucketPage.WF.zeroPage cap, fun j hj => by
        rw [IsReadable_zeroPage] at hj; exact absurd hj (by decide)⟩
      (fun _ op hp => ⟨WF.apply hp.1 op, readable_occupied_apply hp.1 hp.2 op⟩) ops
  exact h.2 i hr

/-- C8 at a concrete run: slot 1 of the page behind the tombstone is readable,
hence occupied. -/
theorem readable_implies_occupied_witness :
    (run 4 tombstoneOps).IsReadable 1 = true ∧ (run 4 tombstoneOps).IsOccupied 1 = true :=
  ⟨by decide, readable_implies_occupied 4 tombstoneOps 1 (by decide) (by decide)⟩

end invariants

/-! ## `NumReadable` and `IsFull` -/

theorem and_one_shiftLeft_ne (c k : Nat) : ((c &&& (1 <<< k)) != 0) = c.testBit k := by
  rw [← and_one_shiftLeft_pos]
  by_cases h : c &&& (1 <<< k) = 0
  · simp [h]
  · have : 0 < c &&& (1 <<< k) := Nat.pos_of_ne_zero h
    simp [h, this]

theorem byte_full (x : Nat) : x % 256 = 255 ↔ ∀ t, t < 8 → x.testBit t = true := by
  have e : (256 : Nat) = 2 ^ 8 := rfl
  have e2 : (255 : Nat) = 2 ^ 8 - 1 := rfl
  constructor
  · intro h t ht
    have h1 : (x % 256).testBit t = (255 : Nat).testBit t := by rw [h]
    rw [e, e2, Nat.testBit_mod_two_pow, Nat.testBit_two_pow_sub_one] at h1
    simpa [ht] using h1
  · intro h
    apply Nat.eq_of_testBit_eq
    intro t
    rw [e, e2, Nat.testBit_mod_two_pow, Nat.testBit_two_pow_sub_one]
    by_cases ht : t < 8
    · simp [ht, h t ht]
    · simp [ht]

theorem mask_and_byte (x : Nat) : 255 &&& (x % 256) = x % 256 := by
  have e : (256 : Nat) = 2 ^ 8 := rfl
  have e2 : (255 : Nat) = 2 ^ 8 - 1 := rfl
  rw [Nat.and_comm, e2, Nat.and_pow_two_sub_one_eq_mod, ← e, Nat.mod_mod]

theorem bitOf_at (bm : List Nat) (i t : Nat) (ht : t < 8) :
    bitOf bm (8 * i + t) = (bm.getD i 0).testBit t := by
  unfold bitOf
  have h1 : (8 * i + t) / 8 = i := by omega
  have h2 : (8 * i + t) % 8 = t := by omega
  rw [h1, h2]

namespace HashTableBucketPage

variable {K V : Type}

theorem NumReadable.inner_spec (c n j cnt : Nat) :
    NumReadable.inner c n j cnt = cnt + (List.range' j n).countP (fun t => c.testBit t) := by
  induction n generalizing j cnt with
  | zero => simp [NumReadable.inner]
  | succ n ih =>
    unfold NumReadable.inner
    rw [List.range'_succ, List.countP_cons, and_one_shiftLeft_ne]
    cases h : c.testBit j with
    | true => simp only [if_true, ih]; omega
    | false => simp only [Bool.false_eq_true, if_false, ih]; omega

theorem NumReadable.byte_spec (p : HashTableBucketPage K V) (i cnt : Nat) :
    NumReadable.inner (p.readable_.getD i 0) 8 0 cnt
      = cnt + (List.range' (8 * i) 8).countP (fun t => p.IsReadable t) := by
  rw [NumReadable.inner_spec]
  congr 1
  have h1 : List.range' (8 * i) 8 = (List.range' 0 8).map (fun t => 8 * i + t) := by
    simp [List.range']
  rw [h1, List.countP_map]
  apply List.countP_congr
  intro t ht
  rw [List.mem_range'_1] at ht
  simp only [Function.comp, IsReadable_eq, bitOf_at p.readable_ i t (by omega)]

theorem NumReadable.outer_spec (p : HashTableBucketPage K V) (n i cnt : Nat) :
    NumReadable.outer p n i cnt
      = cnt + (List.range' (8 * i) (8 * n)).countP (fun t => p.IsReadable t) := by
  induction n generalizing i cnt with
  | zero => simp [NumReadable.outer]
  | succ n ih =>
    unfold NumReadable.outer
    rw [ih, NumReadable.byte_spec]
    have h1 : List.range' (8 * i) (8 * (n + 1))
        = List.range' (8 * i) 8 ++ List.range' (8 * (i + 1)) (8 * n) := by
      have := List.range'_append_1 (8 * i) 8 (8 * n)
      rw [show 8 * i + 8 = 8 * (i + 1) by omega] at this
      rw [this, Nat.mul_succ]
    rw [h1, List.countP_append, Nat.add_assoc]

/-- `NumReadable` counts the set bits of the whole bytes of the bitmap. -/
theorem NumReadable_eq_countP (cap : Nat) (p : HashTableBucketPage K V) :
    p.NumReadable cap
      = (List.range (8 * ((cap + 8 - 1) / 8))).countP (fun t => p.IsReadable t) := by
  unfold NumReadable
  simp only [NumReadable.outer_spec, Nat.mul_zero, Nat.zero_add, List.range_eq_range']

/-- With the padding bits clear, `NumReadable` counts the readable slots. -/
theorem NumReadable_eq_countP_cap (cap : Nat) (p : HashTableBucketPage K V)
    (hpad : ∀ i, cap ≤ i → p.IsReadable i = false) :
    p.NumReadable cap = (List.range cap).countP (fun t => p.IsReadable t) := by
  rw [NumReadable_eq_countP]
  have hle : cap ≤ 8 * ((cap + 8 - 1) / 8) := by omega
  have h1 : List.range (8 * ((cap + 8 - 1) / 8))
      = List.range cap ++ List.range' cap (8 * ((cap + 8 - 1) / 8) - cap) := by
    rw [List.range_eq_range', List.range_eq_range']
    have := List.range'_append_1 0 cap (8 * ((cap + 8 - 1) / 8) - cap)
    rw [Nat.zero_add] at this
    rw [this]
    congr 1
    omega
  rw [h1, List.countP_append]
  have h2 : (List.range' cap (8 * ((cap + 8 - 1) / 8) - cap)).countP (fun t => p.IsReadable t)
      = 0 := by
    rw [List.countP_eq_zero]
    intro t ht
    rw [List.mem_range'_1] at ht
    rw [hpad t ht.1]
    decide
  rw [h2, Nat.add_zero]

theorem IsFull.bytes_spec (p : HashTableBucketPage K V) (n i : Nat) :
    IsFull.bytes p 255 n i = true
      ↔ ∀ m, i ≤ m → m < i + n → p.readable_.getD m 0 % 256 = 255 := by
  induction n generalizing i with
  | zero =>
    simp only [IsFull.bytes, true_iff]
    intro m h1 h2
    omega
  | succ n ih =>
    unfold IsFull.bytes
    rw [mask_and_byte]
    by_cases h : p.readable_.getD i 0 % 256 = 255
    · simp only [h, bne_self_eq_false, Bool.false_eq_true, if_false, ih]
      constructor
      · intro hh m h1 h2
        by_cases e : m = i
        · rw [e]; exact h
        · exact hh m (by omega) (by omega)
      · intro hh m h1 h2
        exact hh m (by omega) (by omega)
    · have hb : (p.readable_.getD i 0 % 256 != 255) = true := by
        simp only [bne_iff_ne, ne_eq]; exact h
      simp only [hb, if_true, Bool.false_eq_true, false_iff]
      intro hh
      exact h (hh i (le_refl _) (by omega))

theorem IsFull.bits_spec (c n i : Nat) (hn : i + n ≤ 8) :
    IsFull.bits c n i = true ↔ ∀ t, i ≤ t → t < i + n → c.testBit t = true := by
  induction n generalizing i with
  | zero =>
    simp only [IsFull.bits, true_iff]
    intro m h1 h2
    omega
  | succ n ih =>
    unfold IsFull.bits
    have hlt : 1 <<< i < 256 := by
      rw [Nat.one_shiftLeft]
      have e : (256 : Nat) = 2 ^ 8 := rfl
      rw [e]
      exact Nat.pow_lt_pow_right (by decide) (by omega)
    have hc : ((1 <<< i % 256 &&& c) == 0) = !c.testBit i := by
      rw [Nat.mod_eq_of_lt hlt, Nat.and_comm]
      have := and_one_shiftLeft_ne c i
      rw [← this]
      cases h : (c &&& 1 <<< i == 0) <;> simp [bne, h]
    rw [hc]
    cases h : c.testBit i with
    | true =>
      simp only [Bool.not_true, Bool.false_eq_true, if_false, ih (i + 1) (by omega)]
      constructor
      · intro hh m h1 h2
        by_cases e : m = i
        · rw [e]; exact h
        · exact hh m (by omega) (by omega)
      · intro hh m h1 h2
        exact hh m (by omega) (by omega)
    | false =>
      simp only [Bool.not_false, if_true, Bool.false_eq_true, false_iff]
      intro hh
      have := hh i (le_refl _) (by omega)
      rw [h] at this
      exact absurd this (by decide)

theorem IsFull_eq (cap : Nat) (p : HashTableBucketPage K V) :
    p.IsFull cap = (IsFull.bytes p 255 (cap / 8) 0 &&
      (!decide (cap % 8 > 0) ||
        IsFull.bits (p.readable_.getD (cap / 8) 0 % 256) (cap % 8) 0)) := by
  simp only [IsFull]
  generalize IsFull.bytes p 255 (cap / 8) 0 = b1
  generalize IsFull.bits (p.readable_.getD (cap / 8) 0 % 256) (cap % 8) 0 = b2
  cases b1 <;> cases b2 <;> by_cases h : cap % 8 > 0 <;> simp [h]

/-- `IsFull` holds exactly when every slot below the capacity is readable. -/
theorem IsFull_iff (cap : Nat) (p : HashTableBucketPage K V) :
    p.IsFull cap = true ↔ ∀ i, i < cap → p.IsReadable i = true := by
  have hbytes := IsFull.bytes_spec p (cap / 8) 0
  have hbits := IsFull.bits_spec (p.readable_.getD (cap / 8) 0 % 256) (cap % 8) 0 (by omega)
  have e : (256 : Nat) = 2 ^ 8 := rfl
  rw [IsFull_eq, Bool.and_eq_true, Bool.or_eq_true, hbytes, hbits]
  constructor
  · rintro ⟨h1, h2⟩ i hi
    rw [IsReadable_eq]
    have hi8 : i = 8 * (i / 8) + i % 8 := by omega
    rw [hi8, bitOf_at _ _ _ (by omega)]
    by_cases hlt : i / 8 < cap / 8
    · exact (byte_full _).1 (h1 (i / 8) (Nat.zero_le _) (by omega)) _ (by omega)
    · have h8 : i / 8 = cap / 8 := by omega
      have hrem : cap % 8 > 0 := by omega
      rcases h2 with h2 | h2
      · simp only [Bool.not_eq_true', decide_eq_false_iff_not] at h2
        exact absurd hrem h2
      · have h3 := h2 (i % 8) (Nat.zero_le _) (by omega)
        rw [e, Nat.testBit_mod_two_pow, Bool.and_eq_true] at h3
        rw [h8]
        exact h3.2
  · intro h
    constructor
    · intro m _ hm
      rw [byte_full]
      intro t ht
      have h3 := h (8 * m + t) (by omega)
      rw [IsReadable_eq, bitOf_at _ _ _ ht] at h3
      exact h3
    · right
      intro t _ ht
      have ht8 : t < 8 := by omega
      have h3 := h (8 * (cap / 8) + t) (by omega)
      rw [IsReadable_eq, bitOf_at _ _ _ ht8] at h3
      rw [e, Nat.testBit_mod_two_pow, Bool.and_eq_true]
      exact ⟨by simp only [decide_eq_true_eq]; exact ht8, h3⟩

end HashTableBucketPage

/-! ## Capacity conservation and occupied monotonicity -/

section conservation

variable {K V : Type} [Zero K] [Zero V] [BEq V]

/-- Each call keeps the padding bits of `readable_` clear. -/
theorem padding_clear_apply {cap : Nat} {p : HashTableBucketPage K V}
    (h : ∀ i, cap ≤ i → p.IsReadable i = false) (op : Op K V) :
    ∀ i, cap ≤ i → (Op.apply cap p op).IsReadable i = false := by
  cases op with
  | Insert key value cmp =>
    show ∀ i, cap ≤ i → (p.Insert cap key value cmp).2.IsReadable i = false
    rcases Insert_cases cap p key value cmp with ⟨e, _⟩ | ⟨f, e, hf, _, _⟩ | ⟨e, _⟩
    · rw [e]; exact h
    · rw [e]
      intro i hi
      show (HashTableBucketPage.Insert.write p f key value).IsReadable i = false
      have hne : i ≠ f := by omega
      rw [HashTableBucketPage.IsReadable_write, h i hi]
      simp [hne]
    · rw [e]; exact h
  | Remove key value cmp =>
    show ∀ i, cap ≤ i → (p.Remove cap key value cmp).2.IsReadable i = false
    rcases Remove_cases cap p key value cmp with ⟨j, e, _⟩ | ⟨e, _⟩
    · rw [e]
      intro i hi
      show (p.RemoveAt j).IsReadable i = false
      rw [HashTableBucketPage.IsReadable_RemoveAt, h i hi]
      rfl
    · rw [e]; exact h
  | ResetBucketPage array_decl =>
    intro i _
    exact IsReadable_ResetBucketPage array_decl p i

/-- The padding bits of `readable_` are clear after every sequence of calls. -/
theorem padding_clear_run (cap : Nat) (ops : List (Op K V)) :
    ∀ i, cap ≤ i → (run cap ops).IsReadable i = false :=
  run_induction cap (fun p => ∀ i, cap ≤ i → p.IsReadable i = false)
    (fun i _ => IsReadable_zeroPage cap i) (fun _ op hp => padding_clear_apply hp op) ops

/-- C9: for every capacity, after any finite sequence of `Insert`, `Remove`
and `ResetBucketPage` calls on the zero-initialised page, `NumReadable()` is
at most the capacity, and it equals the capacity exactly when `IsFull()`
returns `true`. -/
theorem capacity_conservation (cap : Nat) (ops : List (Op K V)) :
    (run cap ops).NumReadable cap ≤ cap ∧
    ((run cap ops).NumReadable cap = cap ↔ (run cap ops).IsFull cap = true) := by
  rw [HashTableBucketPage.NumReadable_eq_countP_cap cap _ (padding_clear_run cap ops),
    HashTableBucketPage.IsFull_iff]
  constructor
  · have := List.countP_le_length (fun t => (run cap ops).IsReadable t) (l := List.range cap)
    rw [List.length_range] at this
    exact this
  · have h := List.countP_eq_length (p := fun t => (run cap ops).IsReadable t)
      (l := List.range cap)
    rw [List.length_range] at h
    rw [h]
    constructor
    · intro hh i hi
      exact hh i (List.mem_range.2 hi)
    · intro hh i hi
      exact hh i (List.mem_range.1 hi)

/-- C10: an index that is occupied before a single call of `Insert`, `Remove`,
`RemoveAt`, `SetReadable` or `SetOccupied`, with any arguments, is occupied
after it; `ResetBucketPage` clears it, whatever the declaration of `array_`. -/
theorem occupied_monotone (cap : Nat) (p : HashTableBucketPage K V) (i : Nat)
    (h : p.IsOccupied i = true) :
    (∀ (k : K) (v : V) (cmp : K → K → Int), (p.Insert cap k v cmp).2.IsOccupied i = true) ∧
    (∀ (k : K) (v : V) (cmp : K → K → Int), (p.Remove cap k v cmp).2.IsOccupied i = true) ∧
    (∀ idx, (p.RemoveAt idx).IsOccupied i = true) ∧
    (∀ idx, (p.SetReadable idx).IsOccupied i = true) ∧
    (∀ idx, (p.SetOccupied idx).IsOccupied i = true) ∧
    (∀ array_decl, (p.ResetBucketPage array_decl).IsOccupied i = false) := by
  refine ⟨?_, ?_, fun _ => h, fun _ => h, ?_, fun array_decl => ?_⟩
  · intro k v cmp
    rcases Insert_cases cap p k v cmp with ⟨e, _⟩ | ⟨f, e, _⟩ | ⟨e, _⟩
    · rw [e]; exact h
    · rw [e]
      show (HashTableBucketPage.Insert.write p f k v).IsOccupied i = true
      rw [HashTableBucketPage.IsOccupied_write, h]
      rfl
    · rw [e]; exact h
  · intro k v cmp
    rcases Remove_cases cap p k v cmp with ⟨j, e, _⟩ | ⟨e, _⟩
    · rw [e]; exact h
    · rw [e]; exact h
  · intro idx
    rw [HashTableBucketPage.IsOccupied_SetOccupied, h]
    rfl
  · rw [HashTableBucketPage.IsOccupied_eq]
    exact bitOf_replicate_zero _ _

/-- C10 at a concrete page: the tombstone in slot 0 stays occupied under each
of the five calls, and the reset clears it. -/
theorem occupied_monotone_witness :
    (run 4 tombstoneOps).IsOccupied 0 = true ∧
    ((run 4 tombstoneOps).Insert 4 2 30 IntComparator).2.IsOccupied 0 = true ∧
    ((run 4 tombstoneOps).Remove 4 1 10 IntComparator).2.IsOccupied 0 = true ∧
    ((run 4 tombstoneOps).RemoveAt 0).IsOccupied 0 = true ∧
    ((run 4 tombstoneOps).SetReadable 0).IsOccupied 0 = true ∧
    ((run 4 tombstoneOps).SetOccupied 0).IsOccupied 0 = true ∧
    ((run 4 tombstoneOps).ResetBucketPage 0).IsOccupied 0 = false ∧
    ((run 4 tombstoneOps).ResetBucketPage 4).IsOccupied 0 = false :=
  have h := occupied_monotone 4 (run 4 tombstoneOps) 0 (by decide)
  ⟨by decide, h.1 2 30 IntComparator, h.2.1 1 10 IntComparator, h.2.2.1 0, h.2.2.2.1 0,
    h.2.2.2.2.1 0, h.2.2.2.2.2 0, h.2.2.2.2.2 4⟩

end conservation

/-! ## `IsFull`, `NumReadable` and `IsEmpty` on arbitrary bitmap bytes -/

theorem byte_zero (x : Nat) : x % 256 = 0 ↔ ∀ t, t < 8 → x.testBit t = false := by
  have e : (256 : Nat) = 2 ^ 8 := rfl
  constructor
  · intro h t ht
    have h1 : (x % 256).testBit t = (0 : Nat).testBit t := by rw [h]
    rw [e, Nat.testBit_mod_two_pow, Nat.zero_testBit] at h1
    simpa [ht] using h1
  · intro h
    apply Nat.eq_of_testBit_eq
    intro t
    rw [e, Nat.testBit_mod_two_pow, Nat.zero_testBit]
    by_cases ht : t < 8
    · simp [ht, h t ht]
    · simp [ht]

theorem mask_and_raw (x : Nat) : 255 &&& x = x % 256 := by
  have e : (256 : Nat) = 2 ^ 8 := rfl
  have e2 : (255 : Nat) = 2 ^ 8 - 1 := rfl
  rw [Nat.and_comm, e2, Nat.and_pow_two_sub_one_eq_mod, ← e]

section queries

variable {K V : Type}

theorem IsEmpty_loop_spec (p : HashTableBucketPage K V) (n i : Nat) :
    HashTableBucketPage.IsEmpty.loop p 255 n i = true
      ↔ ∀ m, i ≤ m → m < i + n → p.readable_.getD m 0 % 256 = 0 := by
  induction n generalizing i with
  | zero =>
    simp only [HashTableBucketPage.IsEmpty.loop, true_iff]
    intro m h1 h2
    omega
  | succ n ih =>
    unfold HashTableBucketPage.IsEmpty.loop
    rw [mask_and_raw]
    by_cases h : p.readable_.getD i 0 % 256 = 0
    · have hb : ¬ (p.readable_.getD i 0 % 256 > 0) := by omega
      simp only [hb, if_false, ih]
      constructor
      · intro hh m h1 h2
        by_cases e : m = i
        · rw [e]; exact h
        · exact hh m (by omega) (by omega)
      · intro hh m h1 h2
        exact hh m (by omega) (by omega)
    · have hb : p.readable_.getD i 0 % 256 > 0 := by omega
      simp only [hb, if_true, Bool.false_eq_true, false_iff]
      intro hh
      exact h (hh i (le_refl _) (by omega))

/-- `IsEmpty` holds exactly when no bit of the bytes of the bitmap is set,
the padding bits of the last byte included. -/
theorem IsEmpty_iff_bytes (cap : Nat) (p : HashTableBucketPage K V) :
    p.IsEmpty cap = true ↔ ∀ i, i < 8 * ((cap + 8 - 1) / 8) → p.IsReadable i = false := by
  unfold HashTableBucketPage.IsEmpty
  simp only [IsEmpty_loop_spec]
  constructor
  · intro h i hi
    rw [HashTableBucketPage.IsReadable_eq]
    have hi8 : i = 8 * (i / 8) + i % 8 := by omega
    rw [hi8, bitOf_at _ _ _ (by omega)]
    exact (byte_zero _).1 (h (i / 8) (Nat.zero_le _) (by omega)) _ (by omega)
  · intro h m _ hm
    rw [byte_zero]
    intro t ht
    have h3 := h (8 * m + t) (by omega)
    rw [HashTableBucketPage.IsReadable_eq, bitOf_at _ _ _ ht] at h3
    exact h3

/-- C11: for every capacity and every content of the bitmap bytes, `IsFull()`
returns `true` exactly when `IsReadable(i)` holds for every `i` below the
capacity; two pages that agree on the readable bits below the capacity, and
differ in any other bit, get the same answer. -/
theorem IsFull_masks_padding (cap : Nat) (p : HashTableBucketPage K V) :
    (p.IsFull cap = true ↔ ∀ i, i < cap → p.IsReadable i = true) ∧
    (∀ q : HashTableBucketPage K V, (∀ i, i < cap → q.IsReadable i = p.IsReadable i) →
      q.IsFull cap = p.IsFull cap) := by
  refine ⟨HashTableBucketPage.IsFull_iff cap p, fun q hq => ?_⟩
  have hp := HashTableBucketPage.IsFull_iff cap p
  have hq2 := HashTableBucketPage.IsFull_iff cap q
  cases h1 : p.IsFull cap with
  | true =>
    rw [hq2]
    intro i hi
    rw [hq i hi]
    exact hp.1 h1 i hi
  | false =>
    cases h2 : q.IsFull cap with
    | false => rfl
    | true =>
      have : p.IsFull cap = true := hp.2 (fun i hi => by rw [← hq i hi]; exact hq2.1 h2 i hi)
      rw [h1] at this
      exact absurd this (by decide)

/-- C12, evaluated on the code: `SetReadable(4)` on the zero-initialised page
of capacity 4 gives the page whose bitmap byte is `16`, only the padding bit 4
set.  No index below the capacity is readable on it, so the count of the
bitmap masked to its first 4 bits is 0; `NumReadable()` returns 1. -/
theorem NumReadable_counts_padding_bit :
    (zeroPage Int Int 4).SetReadable 4 = paddedPage ∧
    (∀ i, i < 4 → paddedPage.IsReadable i = false) ∧
    (List.range 4).countP (fun i => paddedPage.IsReadable i) = 0 ∧
    paddedPage.NumReadable 4 = 1 := by
  refine ⟨rfl, by decide, by decide, by decide⟩

/-- C13, evaluated on the code: `SetReadable(4)` on the zero-initialised page
of capacity 4 gives the page whose bitmap byte is `16`, only the padding bit 4
set.  No index below the capacity is readable on it, so no bit of the bitmap
masked to its first 4 bits is set; `IsEmpty()` returns `false`. -/
theorem IsEmpty_sees_padding_bit :
    (zeroPage Int Int 4).SetReadable 4 = paddedPage ∧
    (∀ i, i < 4 → paddedPage.IsReadable i = false) ∧
    paddedPage.IsEmpty 4 = false := by
  refine ⟨rfl, by decide, by decide⟩

end queries

/-! ## `ResetBucketPage` -/

section reset

variable {K V : Type} [Zero K] [Zero V]

theorem IsOccupied_ResetBucketPage (array_decl : Nat) (p : HashTableBucketPage K V) (i : Nat) :
    (p.ResetBucketPage array_decl).IsOccupied i = false := by
  rw [HashTableBucketPage.IsOccupied_eq]
  exact bitOf_replicate_zero _ _

theorem IsEmpty_ResetBucketPage (cap array_decl : Nat) (p : HashTableBucketPage K V) :
    (p.ResetBucketPage array_decl).IsEmpty cap = true := by
  rw [IsEmpty_iff_bytes]
  intro i _
  exact IsReadable_ResetBucketPage array_decl p i

theorem slot_ResetBucketPage_lt (array_decl : Nat) (p : HashTableBucketPage K V) (i : Nat)
    (hi : i < array_decl) : (p.ResetBucketPage array_decl).slot i = 0 := by
  show (List.replicate (min array_decl p.array_.length) (0 : MappingType K V)
    ++ p.array_.drop array_decl).getD i 0 = 0
  rw [List.getD_eq_getElem?_getD]
  by_cases h : i < min array_decl p.array_.length
  · rw [List.getElem?_append_left (by rw [List.length_replicate]; exact h),
      List.getElem?_replicate, if_pos h]
    rfl
  · rw [List.getElem?_eq_none]
    · rfl
    · rw [List.length_append, List.length_replicate, List.length_drop]
      omega

theorem slot_ResetBucketPage_ge (array_decl : Nat) (p : HashTableBucketPage K V) (i : Nat)
    (hi : array_decl ≤ i) : (p.ResetBucketPage array_decl).slot i = p.slot i := by
  show (List.replicate (min array_decl p.array_.length) (0 : MappingType K V)
    ++ p.array_.drop array_decl).getD i 0 = p.array_.getD i 0
  rw [List.getD_eq_getElem?_getD, List.getD_eq_getElem?_getD]
  by_cases h : array_decl ≤ p.array_.length
  · rw [List.getElem?_append_right (by rw [List.length_replicate]; omega),
      List.length_replicate, List.getElem?_drop, Nat.min_eq_left h]
    congr 2
    omega
  · rw [List.getElem?_eq_none, List.getElem?_eq_none]
    · omega
    · rw [List.length_append, List.length_replicate, List.length_drop]
      omega

theorem ResetBucketPage_twice (array_decl : Nat) (p : HashTableBucketPage K V) :
    (p.ResetBucketPage array_decl).ResetBucketPage array_decl = p.ResetBucketPage array_decl := by
  have harr : List.replicate (min array_decl (List.replicate (min array_decl p.array_.length)
        (0 : MappingType K V) ++ p.array_.drop array_decl).length) (0 : MappingType K V)
      ++ (List.replicate (min array_decl p.array_.length) (0 : MappingType K V)
        ++ p.array_.drop array_decl).drop array_decl
      = List.replicate (min array_decl p.array_.length) (0 : MappingType K V)
        ++ p.array_.drop array_decl := by
    have hlen : (List.replicate (min array_decl p.array_.length) (0 : MappingType K V)
        ++ p.array_.drop array_decl).length = p.array_.length := by
      rw [List.length_append, List.length_replicate, List.length_drop]
      omega
    rw [hlen]
    congr 1
    by_cases h : array_decl ≤ p.array_.length
    · rw [Nat.min_eq_left h]
      exact List.drop_left' (List.length_replicate _ _)
    · rw [List.drop_eq_nil_of_le (by rw [hlen]; omega),
        List.drop_eq_nil_of_le (by omega)]
  show HashTableBucketPage.mk _ _ _ = HashTableBucketPage.mk _ _ _
  simp only [HashTableBucketPage.ResetBucketPage, List.length_replicate]
  rw [harr]

end reset

section resetclaim

variable {K V : Type} [Zero K] [Zero V]

/-- C14, evaluated on the code: from any page `ResetBucketPage` zeroes both
bitmaps, so that `IsOccupied(i)` and `IsReadable(i)` are `false` for every `i`,
`IsEmpty()` is `true` and `NumReadable()` is 0, and a second reset gives the
same page as the first.  Of the slot array it zeroes the slots that
`sizeof(array_)` reaches and leaves the others as they are: with the
declaration `MappingType array_[0]` slot 0 of the page after `Insert(1, 10)`
still holds `(1, 10)` after the reset. -/
theorem ResetBucketPage_zeroes_bitmaps_and_declared_slots (cap array_decl : Nat)
    (p : HashTableBucketPage K V) :
    (∀ i, (p.ResetBucketPage array_decl).IsOccupied i = false) ∧
    (∀ i, (p.ResetBucketPage array_decl).IsReadable i = false) ∧
    (∀ b ∈ (p.ResetBucketPage array_decl).occupied_, b = 0) ∧
    (∀ b ∈ (p.ResetBucketPage array_decl).readable_, b = 0) ∧
    (∀ i, i < array_decl → (p.ResetBucketPage array_decl).slot i = 0) ∧
    (∀ i, array_decl ≤ i → (p.ResetBucketPage array_decl).slot i = p.slot i) ∧
    (p.ResetBucketPage array_decl).occupied_.length = p.occupied_.length ∧
    (p.ResetBucketPage array_decl).readable_.length = p.readable_.length ∧
    (p.ResetBucketPage array_decl).array_.length = p.array_.length ∧
    (p.ResetBucketPage array_decl).IsEmpty cap = true ∧
    (p.ResetBucketPage array_decl).NumReadable cap = 0 ∧
    (p.ResetBucketPage array_decl).ResetBucketPage array_decl = p.ResetBucketPage array_decl ∧
    ((run 4 [.Insert 1 10 IntComparator]).slot 0 = (1, 10) ∧
      ((run 4 [.Insert 1 10 IntComparator]).ResetBucketPage 0).slot 0 = (1, 10) ∧
      ((run 4 [.Insert 1 10 IntComparator]).ResetBucketPage 4).slot 0 = (0, 0)) := by
  refine ⟨IsOccupied_ResetBucketPage array_decl p, IsReadable_ResetBucketPage array_decl p,
    fun b hb => List.eq_of_mem_replicate hb, fun b hb => List.eq_of_mem_replicate hb,
    slot_ResetBucketPage_lt array_decl p, slot_ResetBucketPage_ge array_decl p,
    List.length_replicate _ _, List.length_replicate _ _, ?_,
    IsEmpty_ResetBucketPage cap array_decl p, ?_, ResetBucketPage_twice array_decl p,
    by decide⟩
  · show (List.replicate (min array_decl p.array_.length) (0 : MappingType K V)
      ++ p.array_.drop array_decl).length = _
    rw [List.length_append, List.length_replicate, List.length_drop]
    omega
  · rw [HashTableBucketPage.NumReadable_eq_countP, List.countP_eq_zero]
    intro i _
    rw [IsReadable_ResetBucketPage array_decl p i]
    decide

end resetclaim

/-! ## `FetchAllMappingType` -/

section fetch

variable {K V : Type} [Zero K] [Zero V]

theorem set_append_replicate (done : List (MappingType K V)) (pad : Nat) (x : MappingType K V) :
    (done ++ List.replicate (pad + 1) (0 : MappingType K V)).set done.length x
      = (done ++ [x]) ++ List.replicate pad 0 := by
  induction done with
  | nil => simp [List.replicate_succ]
  | cons a l ih => simpa using ih

/-- The loop of `FetchAllMappingType` on an array with enough room behind the
write position: it fills in the readable entries in index order and leaves the
rest of the array as it is. -/
theorem FetchAllMappingType_loop_spec (p : HashTableBucketPage K V) (n i : Nat)
    (done : List (MappingType K V)) (pad : Nat)
    (h : (List.range' i n).countP (fun t => p.IsReadable t) ≤ pad) :
    HashTableBucketPage.FetchAllMappingType.loop p n i done.length
        (done ++ List.replicate pad 0)
      = some (done ++ ((List.range' i n).filter (fun t => p.IsReadable t)).map (fun t => p.slot t)
          ++ List.replicate (pad - (List.range' i n).countP (fun t => p.IsReadable t)) 0) := by
  induction n generalizing i done pad with
  | zero => simp [HashTableBucketPage.FetchAllMappingType.loop]
  | succ n ih =>
    unfold HashTableBucketPage.FetchAllMappingType.loop
    rw [List.range'_succ, List.countP_cons] at h
    rw [List.range'_succ, List.countP_cons, List.filter_cons]
    cases hr : p.IsReadable i with
    | false =>
      rw [hr] at h
      simp only [Bool.false_eq_true, if_false, Nat.add_zero] at h ⊢
      exact ih (i + 1) done pad h
    | true =>
      rw [hr] at h
      simp only [if_true] at h ⊢
      obtain ⟨pad', rfl⟩ : ∃ pad', pad = pad' + 1 := ⟨pad - 1, by omega⟩
      have hlen : done.length < (done ++ List.replicate (pad' + 1) (0 : MappingType K V)).length := by
        rw [List.length_append, List.length_replicate]
        omega
      rw [if_pos hlen, set_append_replicate]
      have h2 := ih (i + 1) (done ++ [p.slot i]) pad' (by omega)
      rw [List.length_append, List.length_singleton] at h2
      rw [h2, List.map_cons, List.append_assoc done, List.singleton_append]
      congr 3
      omega

end fetch

section fetchclaim

variable {K V : Type} [Zero K] [Zero V] [BEq V]

/-- C15: on every page reached from the zero-initialised page by `Insert`,
`Remove` and `ResetBucketPage` calls, `FetchAllMappingType` leaves the page as
it is, never writes past the allocated array, and returns the entries of the
readable slots below the capacity in increasing index order; the length of
that array is `NumReadable()`. -/
theorem FetchAllMappingType_returns_readable_slots (cap : Nat) (ops : List (Op K V)) :
    ((run cap ops).FetchAllMappingType cap).1 = run cap ops ∧
    ((run cap ops).FetchAllMappingType cap).2
      = some (((List.range cap).filter (fun i => (run cap ops).IsReadable i)).map
          (fun i => (run cap ops).slot i)) ∧
    (((List.range cap).filter (fun i => (run cap ops).IsReadable i)).map
      (fun i => (run cap ops).slot i)).length = (run cap ops).NumReadable cap := by
  have hnum := HashTableBucketPage.NumReadable_eq_countP_cap cap (run cap ops)
    (padding_clear_run cap ops)
  refine ⟨rfl, ?_, ?_⟩
  · show HashTableBucketPage.FetchAllMappingType.loop (run cap ops) cap 0 0
      (List.replicate ((run cap ops).NumReadable cap) 0) = _
    have h := FetchAllMappingType_loop_spec (run cap ops) cap 0 []
      ((run cap ops).NumReadable cap) (by rw [hnum, List.range_eq_range'])
    rw [List.length_nil, List.nil_append] at h
    rw [h, hnum, List.range_eq_range', Nat.sub_self]
    simp
  · rw [List.length_map, hnum, List.countP_eq_length_filter]

end fetchclaim

/-! ## The bit accessors -/

section accessors

variable {K V : Type}

theorem getD_set_other (l : List Nat) (i m b : Nat) (h : m ≠ i) :
    (l.set i b).getD m 0 = l.getD m 0 := by
  rw [List.getD_eq_getElem?_getD, List.getD_eq_getElem?_getD, List.getElem?_set_ne (Ne.symm h)]

theorem bitOf_byte (bm : List Nat) (j : Nat) :
    bitOf bm j = (bm.getD (j / 8) 0 % 256).testBit (j % 8) := by
  have e : (256 : Nat) = 2 ^ 8 := rfl
  have h8 : j % 8 < 8 := Nat.mod_lt _ (by decide)
  simp only [bitOf, e, Nat.testBit_mod_two_pow, h8, decide_True, Bool.true_and]

/-- C16: `IsOccupied(j)` and `IsReadable(j)` read bit `j % 8` of byte `j / 8`
of their bitmap.  For `idx` within the bitmaps, after `SetOccupied(idx)`
`IsOccupied(idx)` is `true`, after `SetReadable(idx)` `IsReadable(idx)` is
`true`, after `RemoveAt(idx)` `IsReadable(idx)` is `false`; each of the three
leaves every other bit and every other byte of its own bitmap, the other
bitmap and the slot array as they were. -/
theorem bit_accessors_address_one_bit (p : HashTableBucketPage K V) (idx : Nat)
    (ho : idx / 8 < p.occupied_.length) (hr : idx / 8 < p.readable_.length) :
    (∀ j, p.IsOccupied j = (p.occupied_.getD (j / 8) 0 % 256).testBit (j % 8)) ∧
    (∀ j, p.IsReadable j = (p.readable_.getD (j / 8) 0 % 256).testBit (j % 8)) ∧
    ((p.SetOccupied idx).IsOccupied idx = true ∧
      (∀ j, j ≠ idx → (p.SetOccupied idx).IsOccupied j = p.IsOccupied j) ∧
      (∀ m, m ≠ idx / 8 → (p.SetOccupied idx).occupied_.getD m 0 = p.occupied_.getD m 0) ∧
      (p.SetOccupied idx).occupied_.length = p.occupied_.length ∧
      (p.SetOccupied idx).readable_ = p.readable_ ∧
      (p.SetOccupied idx).array_ = p.array_ ∧
      (∀ j, (p.SetOccupied idx).IsReadable j = p.IsReadable j)) ∧
    ((p.SetReadable idx).IsReadable idx = true ∧
      (∀ j, j ≠ idx → (p.SetReadable idx).IsReadable j = p.IsReadable j) ∧
      (∀ m, m ≠ idx / 8 → (p.SetReadable idx).readable_.getD m 0 = p.readable_.getD m 0) ∧
      (p.SetReadable idx).readable_.length = p.readable_.length ∧
      (p.SetReadable idx).occupied_ = p.occupied_ ∧
      (p.SetReadable idx).array_ = p.array_ ∧
      (∀ j, (p.SetReadable idx).IsOccupied j = p.IsOccupied j)) ∧
    ((p.RemoveAt idx).IsReadable idx = false ∧
      (∀ j, j ≠ idx → (p.RemoveAt idx).IsReadable j = p.IsReadable j) ∧
      (∀ m, m ≠ idx / 8 → (p.RemoveAt idx).readable_.getD m 0 = p.readable_.getD m 0) ∧
      (p.RemoveAt idx).readable_.length = p.readable_.length ∧
      (p.RemoveAt idx).occupied_ = p.occupied_ ∧
      (p.RemoveAt idx).array_ = p.array_ ∧
      (∀ j, (p.RemoveAt idx).IsOccupied j = p.IsOccupied j)) := by
  refine ⟨fun j => ?_, fun j => ?_, ⟨?_, ?_, ?_, ?_, rfl, rfl, fun _ => rfl⟩,
    ⟨?_, ?_, ?_, ?_, rfl, rfl, fun _ => rfl⟩, ⟨?_, ?_, ?_, ?_, rfl, rfl, fun _ => rfl⟩⟩
  · rw [HashTableBucketPage.IsOccupied_eq, bitOf_byte]
  · rw [HashTableBucketPage.IsReadable_eq, bitOf_byte]
  · rw [HashTableBucketPage.IsOccupied_SetOccupied]
    simp [ho]
  · intro j hj
    rw [HashTableBucketPage.IsOccupied_SetOccupied]
    simp [hj]
  · intro m hm
    exact getD_set_other _ _ _ _ hm
  · exact List.length_set _ _ _
  · rw [HashTableBucketPage.IsReadable_SetReadable]
    simp [hr]
  · intro j hj
    rw [HashTableBucketPage.IsReadable_SetReadable]
    simp [hj]
  · intro m hm
    exact getD_set_other _ _ _ _ hm
  · exact List.length_set _ _ _
  · rw [HashTableBucketPage.IsReadable_RemoveAt]
    simp
  · intro j hj
    rw [HashTableBucketPage.IsReadable_RemoveAt]
    simp [hj]
  · intro m hm
    exact getD_set_other _ _ _ _ hm
  · exact List.length_set _ _ _

/-- C16 at a concrete page of capacity 4 and the index 2: the three calls on
the page behind the tombstone. -/
theorem bit_accessors_address_one_bit_witness :
    ((run 4 tombstoneOps).SetOccupied 2).IsOccupied 2 = true ∧
    ((run 4 tombstoneOps).SetOccupied 2).IsOccupied 1 = (run 4 tombstoneOps).IsOccupied 1 ∧
    ((run 4 tombstoneOps).SetReadable 2).IsReadable 2 = true ∧
    ((run 4 tombstoneOps).SetReadable 2).IsReadable 1 = (run 4 tombstoneOps).IsReadable 1 ∧
    ((run 4 tombstoneOps).RemoveAt 1).IsReadable 1 = false ∧
    (run 4 tombstoneOps).IsReadable 1 = true :=
  have h2 := bit_accessors_address_one_bit (run 4 tombstoneOps) 2 (by decide) (by decide)
  have h1 := bit_accessors_address_one_bit (run 4 tombstoneOps) 1 (by decide) (by decide)
  ⟨h2.2.2.1.1, h2.2.2.1.2.1 1 (by decide), h2.2.2.2.1.1, h2.2.2.2.1.2.1 1 (by decide),
    h1.2.2.2.2.1, by decide⟩

end accessors

/-! ## The scenario of a page of capacity 4 -/

/-- C17: the scenario on the zero-initialised page of capacity 4 with `int`
keys and values and the natural-order comparator, call by call. -/
theorem scenario_capacity_four :
    ((run 4 []).Insert 4 1 10 IntComparator).1 = true ∧
    (run 4 (scenarioOps.take 1)).NumReadable 4 = 1 ∧
    ((run 4 (scenarioOps.take 1)).Insert 4 1 10 IntComparator).1 = false ∧
    (run 4 (scenarioOps.take 2)).NumReadable 4 = 1 ∧
    ((run 4 (scenarioOps.take 2)).Insert 4 1 20 IntComparator).1 = true ∧
    (run 4 (scenarioOps.take 3)).NumReadable 4 = 2 ∧
    (run 4 (scenarioOps.take 3)).GetValue 4 1 IntComparator []
      = (true, run 4 (scenarioOps.take 3), [10, 20]) ∧
    ((run 4 (scenarioOps.take 3)).Remove 4 1 10 IntComparator).1 = true ∧
    (run 4 (scenarioOps.take 4)).NumReadable 4 = 1 ∧
    (run 4 (scenarioOps.take 4)).IsOccupied 0 = true ∧
    (run 4 (scenarioOps.take 4)).IsReadable 0 = false ∧
    ((run 4 (scenarioOps.take 4)).Insert 4 2 30 IntComparator).1 = true ∧
    (run 4 (scenarioOps.take 5)).slot 0 = (2, 30) ∧
    (run 4 (scenarioOps.take 5)).IsReadable 0 = true ∧
    (run 4 (scenarioOps.take 5)).NumReadable 4 = 2 ∧
    ((run 4 (scenarioOps.take 5)).Insert 4 3 1 IntComparator).1 = true ∧
    ((run 4 (scenarioOps.take 6)).Insert 4 4 2 IntComparator).1 = true ∧
    (run 4 scenarioOps).IsFull 4 = true ∧
    ((run 4 scenarioOps).Insert 4 5 1 IntComparator) = (false, run 4 scenarioOps) ∧
    (∀ array_decl, (run 4 (scenarioOps ++ [.ResetBucketPage array_decl])).IsEmpty 4 = true) ∧
    (∀ array_decl i, i < 4 →
      (run 4 (scenarioOps ++ [.ResetBucketPage array_decl])).IsOccupied i = false) ∧
    scenarioOps = [.Insert 1 10 IntComparator, .Insert 1 10 IntComparator,
      .Insert 1 20 IntComparator, .Remove 1 10 IntComparator, .Insert 2 30 IntComparator,
      .Insert 3 1 IntComparator, .Insert 4 2 IntComparator] := by
  refine ⟨by decide, by decide, by decide, by decide, by decide, by decide, rfl, by decide,
    by decide, by decide, by decide, by decide, by decide, by decide, by decide, by decide,
    by decide, by decide, rfl, fun array_decl => ?_, fun array_decl i _ => ?_, rfl⟩
  · rw [run_append_one]
    exact IsEmpty_ResetBucketPage 4 array_decl _
  · rw [run_append_one]
    exact IsOccupied_ResetBucketPage array_decl _ i

/-! ## The reach of the duplicate check of `Insert` -/

section reach

variable {K V : Type}

theorem firstFree_spec (p : HashTableBucketPage K V) (n i : Nat) :
    i ≤ HashTableBucketPage.firstFree p n i ∧ HashTableBucketPage.firstFree p n i ≤ i + n ∧
    (∀ m, i ≤ m → m < HashTableBucketPage.firstFree p n i → p.IsReadable m = true) ∧
    (HashTableBucketPage.firstFree p n i < i + n →
      p.IsReadable (HashTableBucketPage.firstFree p n i) = false) := by
  induction n generalizing i with
  | zero =>
    refine ⟨le_refl _, le_refl _, fun m h1 h2 => ?_, fun h => ?_⟩
    · simp only [HashTableBucketPage.firstFree] at h2; omega
    · simp only [HashTableBucketPage.firstFree] at h; omega
  | succ n ih =>
    unfold HashTableBucketPage.firstFree
    cases hr : p.IsReadable i with
    | false =>
      simp only [Bool.false_eq_true, if_false]
      exact ⟨le_refl _, by omega, fun m h1 h2 => by omega, fun _ => hr⟩
    | true =>
      simp only [if_true]
      obtain ⟨h1, h2, h3, h4⟩ := ih (i + 1)
      refine ⟨by omega, by omega, fun m a b => ?_, fun h => h4 (by omega)⟩
      by_cases e : m = i
      · rw [e]; exact hr
      · exact h3 m (by omega) b

end reach

section reachclaim

variable {K V : Type} [Zero K] [Zero V] [BEq V]

/-- C18: with `f` the smallest index below the capacity that is not readable
(the capacity when there is none), `Insert(k, v, cmp)` returns `false` exactly
when `f` is the capacity or some index before `f` holds a key comparing equal
to `k` and a value equal to `v`.  On the page of capacity 4 with a tombstone
in slot 0 and the readable pair `(1, 10)` in slot 1, `f` is 0 and
`Insert(1, 10)` returns `true` and writes a second copy into slot 0. -/
theorem Insert_checks_only_before_first_free (cap : Nat) (p : HashTableBucketPage K V)
    (k : K) (v : V) (cmp : K → K → Int) :
    (p.firstFree cap 0 ≤ cap ∧
      (∀ m, m < p.firstFree cap 0 → p.IsReadable m = true) ∧
      (p.firstFree cap 0 < cap → p.IsReadable (p.firstFree cap 0) = false)) ∧
    ((p.Insert cap k v cmp).1 = false ↔
      (p.firstFree cap 0 = cap ∨
        ∃ i, i < p.firstFree cap 0 ∧
          (cmp k (p.slot i).1 == 0 && v == (p.slot i).2) = true)) ∧
    ((run 4 tombstoneOps).firstFree 4 0 = 0 ∧
      (run 4 tombstoneOps).IsReadable 1 = true ∧
      (run 4 tombstoneOps).slot 1 = (1, 10) ∧
      ((run 4 tombstoneOps).Insert 4 1 10 IntComparator).1 = true ∧
      ((run 4 tombstoneOps).Insert 4 1 10 IntComparator).2.IsReadable 0 = true ∧
      ((run 4 tombstoneOps).Insert 4 1 10 IntComparator).2.slot 0 = (1, 10) ∧
      ((run 4 tombstoneOps).Insert 4 1 10 IntComparator).2.IsReadable 1 = true ∧
      ((run 4 tombstoneOps).Insert 4 1 10 IntComparator).2.slot 1 = (1, 10)) := by
  obtain ⟨_, h2, h3, h4⟩ := firstFree_spec p cap 0
  rw [Nat.zero_add] at h2 h4
  have h3' : ∀ m, m < p.firstFree cap 0 → p.IsReadable m = true :=
    fun m hm => h3 m (Nat.zero_le _) hm
  refine ⟨⟨h2, h3', h4⟩, ?_, by decide⟩
  have hpair : ∀ i, i < p.firstFree cap 0 →
      (cmp k (p.slot i).1 == 0 && v == (p.slot i).2) = holds p k v cmp i := by
    intro i hi
    rw [holds_eq, h3' i hi, Bool.true_and]
  rcases Insert_cases cap p k v cmp with ⟨e, j, hj, hh, hb⟩ | ⟨f, e, hf, hr, hb⟩ | ⟨e, hall⟩
  · rw [e]
    refine ⟨fun _ => ?_, fun _ => rfl⟩
    have hjr : p.IsReadable j = true := by
      rw [holds_eq, Bool.and_eq_true] at hh
      exact hh.1
    by_cases hc : p.firstFree cap 0 = cap
    · exact Or.inl hc
    · right
      have hlt : j < p.firstFree cap 0 := by
        by_contra hle
        have hfj : p.firstFree cap 0 ≤ j := by omega
        have hfr := h4 (by omega)
        rcases Nat.lt_or_eq_of_le hfj with hl | he
        · rw [(hb _ hl).1] at hfr
          exact absurd hfr (by decide)
        · rw [he, hjr] at hfr
          exact absurd hfr (by decide)
      exact ⟨j, hlt, by rw [hpair j hlt]; exact hh⟩
  · rw [e]
    have hef : p.firstFree cap 0 = f := by
      rcases Nat.lt_trichotomy (p.firstFree cap 0) f with hl | he | hg
      · have hfr := h4 (by omega)
        rw [(hb _ hl).1] at hfr
        exact absurd hfr (by decide)
      · exact he
      · rw [h3' f hg] at hr
        exact absurd hr (by decide)
    refine ⟨fun h => by simp at h, fun h => ?_⟩
    rcases h with h | ⟨i, hi, hp⟩
    · omega
    · rw [hpair i hi, (hb i (by omega)).2] at hp
      exact absurd hp (by decide)
  · rw [e]
    refine ⟨fun _ => Or.inl ?_, fun _ => rfl⟩
    by_contra hc
    have hlt : p.firstFree cap 0 < cap := by omega
    have hfr := h4 hlt
    rw [(hall _ hlt).1] at hfr
    exact absurd hfr (by decide)

end reachclaim

/-! ## Insert followed by GetValue -/

theorem sublist_map_filter {α β : Type} (l : List α) (q q' : α → Bool) (g g' : α → β)
    (h : ∀ a ∈ l, q a = true → q' a = true ∧ g a = g' a) :
    List.Sublist ((l.filter q).map g) ((l.filter q').map g') := by
  induction l with
  | nil => exact List.Sublist.slnil
  | cons a l ih =>
    have ih' := ih (fun b hb => h b (List.mem_cons_of_mem a hb))
    rw [List.filter_cons, List.filter_cons]
    cases hq : q a with
    | true =>
      obtain ⟨h1, h2⟩ := h a (List.mem_cons_self a l) hq
      simp only [h1, if_true, List.map_cons, h2]
      exact List.Sublist.cons₂ _ ih'
    | false =>
      cases hq' : q' a with
      | true =>
        simp only [Bool.false_eq_true, if_false, if_true, List.map_cons]
        exact List.Sublist.cons _ ih'
      | false =>
        simp only [Bool.false_eq_true, if_false]
        exact ih'

section lookup

variable {K V : Type} [Zero K] [Zero V]

theorem GetValue_eq (cap : Nat) (p : HashTableBucketPage K V) (k : K) (cmp : K → K → Int)
    (r : List V) :
    p.GetValue cap k cmp r
      = ((List.range cap).any (fun t => p.IsReadable t && cmp k (p.slot t).1 == 0), p,
          r ++ ((List.range cap).filter
            (fun t => p.IsReadable t && cmp k (p.slot t).1 == 0)).map (fun t => (p.slot t).2)) := by
  unfold HashTableBucketPage.GetValue
  simp only [GetValue_loop_spec, Bool.false_or, List.range_eq_range']

end lookup

section lookupclaim

variable {K V : Type} [Zero K] [Zero V] [BEq V]

/-- C19: when `cmp(k, k) == 0` and `Insert(k, v, cmp)` returns `true`, the
`GetValue(k, cmp, &r)` that follows on an empty `r` returns `true` and `r`
contains `v`; and for every key `k'` (and comparator) the values that
`GetValue(k')` returned before the `Insert` are returned after it in the same
relative order. -/
theorem Insert_then_GetValue (cap : Nat) (p : HashTableBucketPage K V) (k : K) (v : V)
    (cmp : K → K → Int) (hwf : p.WF cap) (hk : cmp k k = 0)
    (hins : (p.Insert cap k v cmp).1 = true) :
    ((p.Insert cap k v cmp).2.GetValue cap k cmp []).1 = true ∧
    v ∈ ((p.Insert cap k v cmp).2.GetValue cap k cmp []).2.2 ∧
    (∀ (k' : K) (cmp' : K → K → Int),
      List.Sublist (p.GetValue cap k' cmp' []).2.2
        ((p.Insert cap k v cmp).2.GetValue cap k' cmp' []).2.2) := by
  rcases Insert_cases cap p k v cmp with ⟨e, _⟩ | ⟨f, e, hf, hr, _⟩ | ⟨e, _⟩
  · rw [e] at hins; simp at hins
  · obtain ⟨_, hrl, ha⟩ := hwf.idx_lt hf
    rw [e]
    simp only [GetValue_eq, List.nil_append]
    have hqr : ∀ j, (HashTableBucketPage.Insert.write p f k v).IsReadable j
        = (p.IsReadable j || decide (j = f)) := by
      intro j
      rw [HashTableBucketPage.IsReadable_write]
      simp [hrl]
    have hqf : (HashTableBucketPage.Insert.write p f k v).slot f = (k, v) :=
      HashTableBucketPage.slot_write_self p f k v ha
    have hpf : ((HashTableBucketPage.Insert.write p f k v).IsReadable f
        && cmp k ((HashTableBucketPage.Insert.write p f k v).slot f).1 == 0) = true := by
      rw [hqr, hqf]
      simp [hk]
    refine ⟨?_, ?_, ?_⟩
    · rw [List.any_eq_true]
      exact ⟨f, List.mem_range.2 hf, hpf⟩
    · rw [List.mem_map]
      refine ⟨f, ?_, by rw [hqf]⟩
      rw [List.mem_filter]
      exact ⟨List.mem_range.2 hf, hpf⟩
    · intro k' cmp'
      apply sublist_map_filter
      intro i _ hi
      rw [Bool.and_eq_true] at hi
      have hne : i ≠ f := by
        intro e2
        rw [e2, hr] at hi
        exact absurd hi.1 (by decide)
      rw [hqr, HashTableBucketPage.slot_write_other p f k v i hne, hi.1, hi.2]
      exact ⟨rfl, rfl⟩
  · rw [e] at hins; simp at hins

/-- C19 at a concrete page: `Insert(1, 20)` into the tombstone in front of the
live pair `(1, 10)`; the lookup of key 1 then returns `[20, 10]`. -/
theorem Insert_then_GetValue_witness :
    (((run 4 tombstoneOps).Insert 4 1 20 IntComparator).2.GetValue 4 1 IntComparator []).1
      = true ∧
    (20 : Int) ∈
      (((run 4 tombstoneOps).Insert 4 1 20 IntComparator).2.GetValue 4 1 IntComparator []).2.2 ∧
    List.Sublist ((run 4 tombstoneOps).GetValue 4 1 IntComparator []).2.2
      (((run 4 tombstoneOps).Insert 4 1 20 IntComparator).2.GetValue 4 1 IntComparator []).2.2 :=
  have h := Insert_then_GetValue 4 (run 4 tombstoneOps) 1 20 IntComparator
    (WF.run 4 tombstoneOps) (by decide) (by decide)
  ⟨h.1, h.2.1, h.2.2 1 IntComparator⟩

end lookupclaim

/-! ## The nested-loop join -/

namespace NestedLoopJoinExecutor

variable {TL TR Out : Type}

theorem Init_inner_spec (pred : Option (TL → TR → Bool)) (mk : TL → TR → Out) (l : TL)
    (R : List TR) (result : List Out) :
    Init.inner pred mk l R result
      = result ++ (R.filter (fun r => match pred with
          | some f => f l r
          | none => true)).map (fun r => mk l r) := by
  induction R generalizing result with
  | nil => simp [Init.inner]
  | cons r rest ih =>
    unfold Init.inner
    cases pred with
    | none => simp [ih]
    | some f =>
      cases hf : f l r with
      | true => simp [ih, hf]
      | false => simp [ih, hf]

theorem Init_outer_spec (pred : Option (TL → TR → Bool)) (mk : TL → TR → Out) (R : List TR)
    (L : List TL) (result : List Out) :
    Init.outer pred mk R L result = result ++ joinPairs pred mk L R := by
  induction L generalizing result with
  | nil => simp [Init.outer, joinPairs]
  | cons l rest ih =>
    unfold Init.outer
    rw [ih, Init_inner_spec]
    simp [joinPairs]

theorem nextN_state (e : NestedLoopJoinExecutor Out) (h0 : e.now_id_ = 0) (t : Out) (n : Nat) :
    (nextN e t n).1.result_ = e.result_ ∧
    (nextN e t n).1.now_id_ = min n e.result_.length := by
  induction n with
  | zero => exact ⟨rfl, by rw [Nat.zero_min]; exact h0⟩
  | succ n ih =>
    obtain ⟨h1, h2⟩ := ih
    show ((nextN e t n).1.Next (nextN e t n).2).2.1.result_ = _ ∧
      ((nextN e t n).1.Next (nextN e t n).2).2.1.now_id_ = _
    unfold Next
    by_cases hlt : n < e.result_.length
    · have hid : (nextN e t n).1.now_id_ < (nextN e t n).1.result_.length := by
        rw [h1, h2]; omega
      rw [List.getElem?_eq_getElem hid]
      refine ⟨h1, ?_⟩
      show (nextN e t n).1.now_id_ + 1 = _
      rw [h2]; omega
    · have hid : (nextN e t n).1.result_.length ≤ (nextN e t n).1.now_id_ := by
        rw [h1, h2]; omega
      rw [List.getElem?_eq_none hid]
      refine ⟨h1, ?_⟩
      show (nextN e t n).1.now_id_ = _
      rw [h2]; omega

/-- C20: after one `Init` on a fresh executor over the left tuples `L` and the
right tuples `R`, `result_` holds one output tuple for each pair `(l, r)`, `l`
over `L` in order and for each `l` `r` over `R` in order, for which the
predicate is absent or true.  The call of `Next` after `n` earlier calls
returns `true` with the `n`-th of these tuples while there is one; from then
on every call returns `false` and leaves the executor and the output tuple as
they are. -/
theorem NestedLoopJoin_replays_pairs (pred : Option (TL → TR → Bool)) (mk : TL → TR → Out)
    (L : List TL) (R : List TR) (t0 : Out) :
    ((fresh Out).Init pred mk L R).result_ = joinPairs pred mk L R ∧
    (∀ n, n < (joinPairs pred mk L R).length →
      ((nextN ((fresh Out).Init pred mk L R) t0 n).1.Next
        (nextN ((fresh Out).Init pred mk L R) t0 n).2).1 = true ∧
      (joinPairs pred mk L R)[n]? = some
        ((nextN ((fresh Out).Init pred mk L R) t0 n).1.Next
          (nextN ((fresh Out).Init pred mk L R) t0 n).2).2.2) ∧
    (∀ n, (joinPairs pred mk L R).length ≤ n →
      (nextN ((fresh Out).Init pred mk L R) t0 n).1.Next
          (nextN ((fresh Out).Init pred mk L R) t0 n).2
        = (false, (nextN ((fresh Out).Init pred mk L R) t0 n).1,
            (nextN ((fresh Out).Init pred mk L R) t0 n).2)) := by
  have hres : ((fresh Out).Init pred mk L R).result_ = joinPairs pred mk L R := by
    show Init.outer pred mk R L [] = _
    rw [Init_outer_spec, List.nil_append]
  have hst := nextN_state ((fresh Out).Init pred mk L R) rfl t0
  rw [hres] at hst
  refine ⟨hres, fun n hn => ?_, fun n hn => ?_⟩
  · obtain ⟨h1, h2⟩ := hst n
    have hid : (nextN ((fresh Out).Init pred mk L R) t0 n).1.now_id_ = n := by
      rw [h2]; omega
    unfold Next
    rw [h1, hid, List.getElem?_eq_getElem hn]
    exact ⟨rfl, rfl⟩
  · obtain ⟨h1, h2⟩ := hst n
    unfold Next
    rw [h1, h2, List.getElem?_eq_none (by omega)]

end NestedLoopJoinExecutor

end bustub
